import Mathlib

/-!
# go-permute: a shallow embedding of `permute.go`

The Go package enumerates the permutations of a collection in place, in
lexicographic order, and can jump to a permutation by its rank.

Modelling conventions.

* Go `int` / `int64` values are `Int`; `%` and `/` are Go's truncated
  remainder and quotient (`Int.tmod`, `Int.tdiv`).  No arithmetic of the
  package can leave the 64-bit range when the rank is a 64-bit value, so no
  wrap-around is modelled.
* `fact` and `perm` (`[]int`) are `List Int`.
* The collection behind `Interface` is the `slice` adapter over a `List α`:
  `Len` is the length and `Swap` exchanges two slots, faulting outside the
  bounds as `reflect.Swapper` does.
* A run-time panic (index or slice bounds out of range, `make` with a negative
  length, the explicit `panic` of `next`) is the result `Fault.crashed`.
* The only loop of the package without an evident bound is the chase loop of
  `perm.apply`; it is given a fuel argument and reports `Fault.starved` when
  the fuel is used up.
-/

namespace GoPermute

/-- Ways in which a call does not return normally. -/
inductive Fault where
  | crashed
  | starved
  deriving DecidableEq

/-- Result of running Go code that may panic. -/
abbrev Run (β : Type) := Except Fault β

/-- Go index expression `s[j]` for an `int` index `j`. -/
def index {β : Type} (s : List β) (j : Int) : Run β :=
  if 0 ≤ j then
    match s[j.toNat]? with
    | some x => pure x
    | none => throw Fault.crashed
  else throw Fault.crashed

/-- Go assignment `s[j] = x` for an `int` index `j`. -/
def assign {β : Type} (s : List β) (j : Int) (x : β) : Run (List β) :=
  if 0 ≤ j ∧ j.toNat < s.length then pure (s.set j.toNat x) else throw Fault.crashed

/-- The method `slice.Swap(i, j)`: exchange two slots of the collection. -/
def swap {β : Type} (d : List β) (i j : Int) : Run (List β) := do
  let a ← index d i
  let b ← index d j
  pure ((d.set i.toNat b).set j.toNat a)

/-! ## fact -/

/-- The type `fact`: a factoradic encoding of an integer, as `[]int`. -/
abbrev fact := List Int

/-- The type `perm`: a permutation of the numbers `0..n-1`, as `[]int`. -/
abbrev perm := List Int

/-- Loop of `newFact`: `k` iterations starting at radix `j`, returning the
digits written and the final value of `i`. -/
def factLoop (i : Int) (j : Nat) : Nat → List Int × Int
  | 0 => ([], i)
  | k + 1 =>
    let r := factLoop (Int.tdiv i j) (j + 1) k
    (Int.tmod i j :: r.1, r.2)

/-- The function `newFact(i, n)`; `make(fact, n-1)` panics when `n = 0`. -/
def newFact (i : Int) (n : Nat) : Run (fact × Bool) :=
  if n = 0 then throw Fault.crashed
  else
    let r := factLoop i 2 (n - 1)
    pure (r.1, decide (r.2 = 0))

/-- The function `identityPerm(n)`. -/
def identityPerm (n : Nat) : perm := (List.range n).map Int.ofNat

/-- One iteration of the loop of `fact.perm`, for `j` already computed:
`x := p[j]; copy(p[i+1:j+1], p[i:j]); p[i] = x`. -/
def rotate (p : perm) (i : Nat) (j : Int) : Run perm := do
  let x ← index p j
  if j < i then throw Fault.crashed
  else pure (p.take i ++ x :: ((p.drop i).take (j.toNat - i) ++ p.drop (j.toNat + 1)))

/-- Loop of `fact.perm`: `k` remaining iterations, the next one at index `i`. -/
def permLoop (f : fact) : Nat → Nat → perm → Run perm
  | 0, _, p => pure p
  | k + 1, i, p => do
    let x ← index f ((f.length : Int) - 1 - i)
    let p' ← rotate p i (i + x)
    permLoop f k (i + 1) p'

/-- The method `fact.perm()`. -/
def fact.perm (f : fact) : Run perm :=
  permLoop f f.length 0 (identityPerm (f.length + 1))

/-! ## perm -/

/-- Inner loop of `perm.apply`: `for j < i { j = p[j] }`. -/
def chase (p : perm) (i : Nat) : Nat → Int → Run Int
  | 0, j => if j < i then throw Fault.starved else pure j
  | fuel + 1, j =>
    if j < i then do
      let j' ← index p j
      chase p i fuel j'
    else pure j

/-- Outer loop of `perm.apply`: `k` remaining iterations, the next at `i`. -/
def applyLoop {β : Type} (fuel : Nat) (p : perm) : Nat → Nat → List β → Run (List β)
  | 0, _, d => pure d
  | k + 1, i, d => do
    let j0 ← index p i
    let j ← chase p i fuel j0
    let d' ← swap d i j
    applyLoop fuel p k (i + 1) d'

/-- The method `perm.apply(d)`. -/
def perm.apply {β : Type} (fuel : Nat) (p : perm) (d : List β) : Run (List β) :=
  applyLoop fuel p p.length 0 d

/-- First loop of `perm.next`: `for i >= 0 && p[i] >= p[i+1] { i-- }`, entered
with `i = m - 1`; the result is the final `i`, negative when no ascent exists
(only its sign is then used). -/
def scanAscent (p : perm) : Nat → Run Int
  | 0 => pure (-1)
  | m + 1 => do
    let a ← index p m
    let b ← index p ((m : Int) + 1)
    if a ≥ b then scanAscent p m else pure m

/-- Second loop of `perm.next`: `for p[i] >= p[j] { j-- }`, entered with
`j = m - 1`; at `j = -1` the index expression `p[j]` panics. -/
def scanLarger (p : perm) (i : Int) : Nat → Run Int
  | 0 => throw Fault.crashed
  | m + 1 => do
    let a ← index p i
    let b ← index p m
    if a ≥ b then scanLarger p i m else pure m

/-- Reversal loop of `perm.next`:
`for l, r := i+1, len(p)-1; l < r; l, r = l+1, r-1`, mirrored on `d`. -/
def reverseLoop {β : Type} : Nat → Nat → perm → List β → Run (perm × List β)
  | _, 0, p, d => pure (p, d)
  | l, r + 1, p, d =>
    if l < r + 1 then do
      let p' ← swap p l ((r : Int) + 1)
      let d' ← swap d l ((r : Int) + 1)
      reverseLoop (l + 1) r p' d'
    else pure (p, d)

/-- The method `perm.next(d)`: the flag returned, the vector and the collection. -/
def perm.next {β : Type} (p : perm) (d : List β) : Run (Bool × perm × List β) :=
  if p.length ≠ d.length then throw Fault.crashed
  else do
    let i ← scanAscent p (p.length - 1)
    if i < 0 then pure (false, p, d)
    else do
      let j ← scanLarger p i p.length
      let p1 ← swap p i j
      let d1 ← swap d i j
      let r ← reverseLoop (i.toNat + 1) (p.length - 1) p1 d1
      pure (true, r.1, r.2)

/-- Loop of `perm.inverse`: `q[j] = i` for each `i, j := range p`. -/
def inverseLoop (p : perm) : Nat → Nat → perm → Run perm
  | 0, _, q => pure q
  | k + 1, i, q => do
    let j ← index p i
    let q' ← assign q j i
    inverseLoop p k (i + 1) q'

/-- The method `perm.inverse()`. -/
def perm.inverse (p : perm) : Run perm :=
  inverseLoop p p.length 0 (List.replicate p.length 0)

/-! ## Permuter -/

/-- The `Permuter` struct; `reset = none` is Go's `nil`. -/
structure Permuter (β : Type) where
  data : List β
  p : perm
  first : Bool
  reset : Option perm

/-- The constructor `NewPermuter(data)` (and `NewSlicePermuter`). -/
def NewPermuter {β : Type} (data : List β) : Permuter β :=
  { data := data, p := identityPerm data.length, first := true, reset := none }

/-- The method `Permuter.SetNext(i)`. -/
def Permuter.SetNext {β : Type} (i : Int) (s : Permuter β) : Run (Bool × Permuter β) := do
  let r ← newFact i s.data.length
  if r.2 = false then pure (false, s)
  else do
    let reset ← match s.reset with
      | none => do
        let q ← perm.inverse s.p
        pure (some q)
      | some q => pure (some q)
    let p ← fact.perm r.1
    pure (true, { s with reset := reset, p := p, first := true })

/-- The method `Permuter.Permute()`. -/
def Permuter.Permute {β : Type} (fuel : Nat) (s : Permuter β) : Run (Bool × Permuter β) := do
  let s1 ← match s.reset with
    | some q => do
      let d ← perm.apply fuel q s.data
      pure { s with data := d, reset := none }
    | none => pure s
  if s1.first then do
    let d ← perm.apply fuel s1.p s1.data
    pure (true, { s1 with first := false, data := d })
  else do
    let r ← perm.next s1.p s1.data
    if r.1 then pure (true, { s1 with p := r.2.1, data := r.2.2 })
    else do
      let q ← perm.inverse r.2.1
      let d ← perm.apply fuel q r.2.2
      pure (false, { s1 with p := identityPerm d.length, data := d })

/-! ## Vocabulary of the specification -/

/-- The collection a vector `q` stands for: slot `i` holds `orig[q[i]]`. -/
def arrange {β : Type} (orig : List β) (q : perm) : List β :=
  q.filterMap (fun j => if 0 ≤ j then orig[j.toNat]? else none)

/-- All arrangements of `k` elements of `l`, the head chosen in the order of
`l`: for an increasing `l` these are the arrangements in lexicographic order. -/
def lexPermsAux : Nat → List Int → List perm
  | 0, _ => [[]]
  | k + 1, l => l.flatMap (fun x => (lexPermsAux k (l.erase x)).map (fun t => x :: t))

/-- The permutations of `0..n-1` in lexicographic order; the entry at index
`r` is the permutation of rank `r`. -/
def lexPerms (n : Nat) : List perm := lexPermsAux n (identityPerm n)

/-- A valid permutation vector of `0..n-1`. -/
def IsPerm (n : Nat) (q : perm) : Prop := List.Perm q (identityPerm n)

/-- Result of `m` consecutive calls of `Permute`: the flag returned by each call with the
collection as it stands after that call, and the final state. -/
def permuteTimes {β : Type} (fuel : Nat) : Nat → Permuter β → Run (List (Bool × List β) × Permuter β)
  | 0, s => pure ([], s)
  | m + 1, s => do
    let r ← Permuter.Permute fuel s
    let t ← permuteTimes fuel m r.2
    pure ((r.1, r.2.data) :: t.1, t.2)

/-- States a `Permuter` built over `orig` can be in: after `NewPermuter`, and
after any call of `SetNext` or `Permute` that returned. -/
inductive Reachable {β : Type} (orig : List β) : Permuter β → Prop where
  | fresh : Reachable orig (NewPermuter orig)
  | setNext {s s' : Permuter β} {i : Int} {b : Bool} :
      Reachable orig s → Permuter.SetNext i s = Except.ok (b, s') → Reachable orig s'
  | permute {s s' : Permuter β} {fuel : Nat} {b : Bool} :
      Reachable orig s → Permuter.Permute fuel s = Except.ok (b, s') → Reachable orig s'

/-! ## Vocabulary of the proofs -/

/-- Every entry of `q` is an index below `m`. -/
def InRange (m : Nat) (q : List Int) : Prop := ∀ x ∈ q, 0 ≤ x ∧ x < (m : Int)

/-- One step of the chase loop of `apply`, on indices. -/
def hop (p : List Int) (s : Nat) : Nat := (p.getD s 0).toNat

/-- The vector `next` produces from `A ++ a :: (D1 ++ b :: D2)`. -/
def succOf (A : List Int) (a : Int) (D1 : List Int) (b : Int) (D2 : List Int) : List Int :=
  A ++ b :: (D2.reverse ++ a :: D1.reverse)

/-- Digits of `r` from the most significant one, `m` of them. -/
def digitsMsd : Nat → Nat → List Nat
  | 0, _ => []
  | m + 1, r => r / (m + 1).factorial :: digitsMsd m (r % (m + 1).factorial)

/-- The vector selected from `l` by digits given from the most significant. -/
def decode : List Nat → List Int → List Int
  | [], l => l
  | d :: ds, l =>
    match l[d]? with
    | some x => x :: decode ds (l.eraseIdx d)
    | none => l

/-- The vector `q` undoes `w`: `q[w[t]] = t` for every slot `t`. -/
def Undoes (q w : List Int) : Prop := ∀ t s : Nat, w[t]? = some (s : Int) → q[s]? = some (t : Int)

/-- The shapes of a `Permuter` over `orig`: untouched; showing the vector `p`;
or holding a staged vector `p` while the collection still shows `w`, which the
pending reset `q` undoes. -/
inductive Inv {β : Type} (orig : List β) : Permuter β → Prop where
  | fresh : Inv orig ⟨orig, identityPerm orig.length, true, none⟩
  | shown (p : List Int) : IsPerm orig.length p → Inv orig ⟨arrange orig p, p, false, none⟩
  | pending (p w q : List Int) : IsPerm orig.length p → IsPerm orig.length w →
      IsPerm orig.length q → Undoes q w → Inv orig ⟨arrange orig w, p, true, some q⟩

/-! ## Basic facts on indexing and swapping -/

theorem index_natCast {β : Type} (s : List β) (k : Nat) (h : k < s.length) :
    index s (k : Int) = Except.ok s[k] := by
  simp [index, List.getElem?_eq_getElem h, pure, Except.pure]

theorem index_of_getElem? {β : Type} {s : List β} {k : Nat} {x : β} (h : s[k]? = some x) :
    index s (k : Int) = Except.ok x := by
  simp [index, h, pure, Except.pure]

theorem index_neg {β : Type} (s : List β) (j : Int) (h : j < 0) :
    index s j = Except.error Fault.crashed := by
  simp [index, not_le.mpr h, throw, throwThe, MonadExceptOf.throw]

theorem index_ok {β : Type} {s : List β} {j : Int} {x : β} (h : index s j = Except.ok x) :
    0 ≤ j ∧ s[j.toNat]? = some x := by
  unfold index at h
  split at h
  · rename_i h0
    refine ⟨h0, ?_⟩
    split at h
    · rename_i y hy
      simp [pure, Except.pure] at h
      rw [hy, h]
    · simp [throw, throwThe, MonadExceptOf.throw] at h
  · simp [throw, throwThe, MonadExceptOf.throw] at h

theorem swap_natCast {β : Type} (d : List β) (i j : Nat) (hi : i < d.length) (hj : j < d.length) :
    swap d (i : Int) (j : Int) = Except.ok ((d.set i d[j]).set j d[i]) := by
  simp [swap, index_natCast, hi, hj, bind, Except.bind, pure, Except.pure]

theorem swap_ok_length {β : Type} {d d' : List β} {i j : Int} (h : swap d i j = Except.ok d') :
    d'.length = d.length := by
  unfold swap at h
  cases hi : index d i with
  | error e => simp [hi, bind, Except.bind] at h
  | ok a =>
    cases hj : index d j with
    | error e => simp [hi, hj, bind, Except.bind] at h
    | ok b =>
      simp [hi, hj, bind, Except.bind, pure, Except.pure] at h
      subst h
      simp

theorem set_pieces {β : Type} (X Y : List β) (x v : β) (k : Nat) (hk : k = X.length) :
    (X ++ x :: Y).set k v = X ++ v :: Y := by
  subst hk
  induction X with
  | nil => simp
  | cons a X ih => simp [ih]

theorem getElem?_pieces {β : Type} (X Y : List β) (x : β) (k : Nat) (hk : k = X.length) :
    (X ++ x :: Y)[k]? = some x := by
  subst hk
  induction X with
  | nil => simp
  | cons a X ih => simpa using ih

theorem swap_ok_iff {β : Type} {d d' : List β} {i j : Int} :
    swap d i j = Except.ok d' ↔
      ∃ a b, index d i = Except.ok a ∧ index d j = Except.ok b ∧
        d' = (d.set i.toNat b).set j.toNat a := by
  unfold swap
  cases hi : index d i with
  | error e => simp [bind, Except.bind]
  | ok a =>
    cases hj : index d j with
    | error e => simp [bind, Except.bind]
    | ok b =>
      simp only [bind, Except.bind, pure, Except.pure, Except.ok.injEq]
      constructor
      · intro h; exact ⟨a, b, rfl, rfl, h.symm⟩
      · rintro ⟨a', b', h1, h2, h3⟩; subst h1; subst h2; exact h3.symm

/-- Swapping two slots of a list given in pieces. -/
theorem swap_pieces {β : Type} (X M Y : List β) (x y : β) (i j : Nat) (hi : i = X.length)
    (hj : j = X.length + 1 + M.length) :
    swap (X ++ x :: (M ++ y :: Y)) (i : Int) (j : Int)
      = Except.ok (X ++ y :: (M ++ x :: Y)) := by
  have e1 : X ++ x :: (M ++ y :: Y) = (X ++ x :: M) ++ y :: Y := by simp
  have e2 : X ++ y :: (M ++ y :: Y) = (X ++ y :: M) ++ y :: Y := by simp
  have e3 : X ++ y :: (M ++ x :: Y) = (X ++ y :: M) ++ x :: Y := by simp
  rw [swap_ok_iff]
  refine ⟨x, y, index_of_getElem? (getElem?_pieces X _ x i hi), ?_, ?_⟩
  · rw [e1]
    exact index_of_getElem? (getElem?_pieces _ Y y j (by simp [hj]; omega))
  · simp only [Int.toNat_ofNat]
    rw [set_pieces X _ x y i hi, e2, set_pieces _ Y y x j (by simp [hj]; omega), e3]

theorem swap_self {β : Type} (d : List β) (i : Nat) (hi : i < d.length) :
    swap d (i : Int) (i : Int) = Except.ok d := by
  rw [swap_natCast _ _ _ hi hi]
  congr 1
  apply List.ext_getElem
  · simp
  · intro n h1 h2
    simp [List.getElem_set]
    intro h; subst h; rfl

/-- Any list splits around two of its positions. -/
theorem split_two {β : Type} (d : List β) (i j : Nat) (hij : i < j) (hj : j < d.length) :
    ∃ X M Y, d = X ++ d[i] :: (M ++ d[j] :: Y) ∧ X.length = i ∧ M.length = j - i - 1 := by
  refine ⟨d.take i, (d.drop (i + 1)).take (j - i - 1), d.drop (j + 1), ?_, ?_, ?_⟩
  · apply List.ext_getElem
    · simp; omega
    · intro n h1 h2
      rw [List.getElem_append]
      split
      · rename_i h; simp at h; simp
      · rename_i h
        simp at h
        have hl : (List.take i d).length = i := by simp; omega
        simp only [hl]
        rcases Nat.lt_or_ge (n - i) 1 with h3 | h3
        · have : n = i := by omega
          subst this; simp
        · obtain ⟨m, hm⟩ : ∃ m, n - i = m + 1 := ⟨n - i - 1, by omega⟩
          simp only [hm, List.getElem_cons_succ]
          rw [List.getElem_append]
          split
          · rename_i h4; simp at h4
            simp
            congr 1; omega
          · rename_i h4
            simp at h4
            have hl2 : (List.take (j - i - 1) (List.drop (i + 1) d)).length = j - i - 1 := by
              simp; omega
            simp only [hl2]
            rcases Nat.lt_or_ge (m - (j - i - 1)) 1 with h5 | h5
            · have : n = j := by omega
              subst this
              simp [show m - (n - i - 1) = 0 by omega]
            · obtain ⟨m2, hm2⟩ : ∃ m2, m - (j - i - 1) = m2 + 1 := ⟨m - (j - i - 1) - 1, by omega⟩
              simp only [hm2, List.getElem_cons_succ]
              simp
              congr 1; omega
  · simp; omega
  · simp; omega

theorem swap_comm {β : Type} (d : List β) (i j : Nat) (hi : i < d.length) (hj : j < d.length) :
    swap d (i : Int) (j : Int) = swap d (j : Int) (i : Int) := by
  rw [swap_natCast _ _ _ hi hj, swap_natCast _ _ _ hj hi]
  congr 1
  rcases eq_or_ne i j with h | h
  · subst h; rfl
  · rw [List.set_comm _ _ _ h]

theorem swap_perm {β : Type} {d d' : List β} {i j : Nat} (h : swap d (i : Int) (j : Int) = Except.ok d') :
    d'.Perm d := by
  have hi : i < d.length := by
    unfold swap at h
    cases hi : index d i with
    | error e => simp [hi, bind, Except.bind] at h
    | ok a => have := (index_ok hi).2; simp at this; exact (List.getElem?_eq_some_iff.mp this).1
  have hj : j < d.length := by
    unfold swap at h
    cases hi : index d i with
    | error e => simp [hi, bind, Except.bind] at h
    | ok a =>
      cases hj : index d j with
      | error e => simp [hi, hj, bind, Except.bind] at h
      | ok b => have := (index_ok hj).2; simp at this; exact (List.getElem?_eq_some_iff.mp this).1
  have key : ∀ (a b : Nat), a < b → b < d.length → ∀ e, swap d (a : Int) (b : Int) = Except.ok e → e.Perm d := by
    intro a b hab hb e he
    obtain ⟨X, M, Y, hd, hX, hM⟩ := split_two d a b hab hb
    have := swap_pieces X M Y d[a] d[b] a b hX.symm (by omega)
    rw [← hd, he] at this
    injection this with this
    rw [this]
    conv => rhs; rw [hd]
    apply List.Perm.append_left
    have h1 : (d[a] :: (M ++ d[b] :: Y)).Perm (d[a] :: d[b] :: (M ++ Y)) :=
      List.Perm.cons _ List.perm_middle
    have h2 : (d[b] :: (M ++ d[a] :: Y)).Perm (d[b] :: d[a] :: (M ++ Y)) :=
      List.Perm.cons _ List.perm_middle
    exact h2.trans ((List.Perm.swap _ _ _).trans h1.symm)
  rcases Nat.lt_trichotomy i j with hij | hij | hij
  · exact key i j hij hj d' h
  · subst hij
    rw [swap_self d i hi] at h
    injection h with h
    rw [h]
  · rw [swap_comm d i j hi hj] at h
    exact key j i hij hi d' h

/-! ## Valid vectors and the collection they stand for -/

theorem mem_identityPerm {n : Nat} {x : Int} : x ∈ identityPerm n ↔ 0 ≤ x ∧ x < (n : Int) := by
  unfold identityPerm
  simp only [List.mem_map, List.mem_range]
  constructor
  · rintro ⟨k, hk, rfl⟩
    exact ⟨Int.ofNat_nonneg k, Int.ofNat_lt.mpr hk⟩
  · rintro ⟨h0, h1⟩
    refine ⟨x.toNat, by omega, ?_⟩
    simp [Int.toNat_of_nonneg h0]

theorem identityPerm_length (n : Nat) : (identityPerm n).length = n := by
  simp [identityPerm]

theorem identityPerm_getElem? {n k : Nat} (h : k < n) : (identityPerm n)[k]? = some (k : Int) := by
  simp [identityPerm, List.getElem?_range h]

theorem identityPerm_nodup (n : Nat) : (identityPerm n).Nodup := by
  unfold identityPerm
  exact (List.nodup_range n).map (fun a b h => by simpa using h)

theorem IsPerm.length {n : Nat} {q : List Int} (h : IsPerm n q) : q.length = n := by
  rw [List.Perm.length_eq h, identityPerm_length]

theorem IsPerm.inRange {n : Nat} {q : List Int} (h : IsPerm n q) : InRange n q :=
  fun _ hx => mem_identityPerm.mp ((List.Perm.mem_iff h).mp hx)

theorem IsPerm.nodup {n : Nat} {q : List Int} (h : IsPerm n q) : q.Nodup :=
  (List.Perm.nodup_iff h).mpr (identityPerm_nodup n)

theorem IsPerm.mem {n : Nat} {q : List Int} (h : IsPerm n q) {k : Nat} (hk : k < n) :
    (k : Int) ∈ q :=
  (List.Perm.mem_iff h).mpr (mem_identityPerm.mpr ⟨Int.ofNat_nonneg k, by exact_mod_cast hk⟩)

theorem isPerm_identity (n : Nat) : IsPerm n (identityPerm n) := List.Perm.refl _

theorem InRange.getElem? {m : Nat} {q : List Int} (h : InRange m q) {t : Nat} (ht : t < q.length) :
    ∃ k : Nat, k < m ∧ q[t]? = some (k : Int) := by
  have hx := h q[t] (List.getElem_mem ht)
  refine ⟨q[t].toNat, by omega, ?_⟩
  rw [List.getElem?_eq_getElem ht, Int.toNat_of_nonneg hx.1]

theorem arrange_cons_natCast {β : Type} (orig : List β) (k : Nat) (q : List Int) (v : β)
    (h : orig[k]? = some v) : arrange orig ((k : Int) :: q) = v :: arrange orig q := by
  simp [arrange, List.filterMap_cons, h]

theorem arrange_append {β : Type} (orig : List β) (q q' : List Int) :
    arrange orig (q ++ q') = arrange orig q ++ arrange orig q' := by
  simp [arrange]

theorem arrange_length {β : Type} (orig : List β) (q : List Int) (h : InRange orig.length q) :
    (arrange orig q).length = q.length := by
  induction q with
  | nil => simp [arrange]
  | cons x q ih =>
    have hx := h x (List.mem_cons_self _ _)
    have hq : InRange orig.length q := fun y hy => h y (List.mem_cons_of_mem _ hy)
    obtain ⟨k, rfl⟩ := Int.eq_ofNat_of_zero_le hx.1
    have hk : k < orig.length := by omega
    rw [arrange_cons_natCast orig k q orig[k] (List.getElem?_eq_getElem hk)]
    simp [ih hq]

theorem arrange_getElem? {β : Type} (orig : List β) (q : List Int) (h : InRange orig.length q)
    (t k : Nat) (hk : q[t]? = some (k : Int)) : (arrange orig q)[t]? = orig[k]? := by
  induction q generalizing t with
  | nil => simp at hk
  | cons x q ih =>
    have hx := h x (List.mem_cons_self _ _)
    have hq : InRange orig.length q := fun y hy => h y (List.mem_cons_of_mem _ hy)
    obtain ⟨c, rfl⟩ := Int.eq_ofNat_of_zero_le hx.1
    have hc : c < orig.length := by omega
    rw [arrange_cons_natCast orig c q orig[c] (List.getElem?_eq_getElem hc)]
    cases t with
    | zero =>
      simp at hk
      subst hk
      simp
    | succ t =>
      simp at hk
      simpa using ih hq t hk

theorem arrange_identity {β : Type} (orig : List β) :
    arrange orig (identityPerm orig.length) = orig := by
  apply List.ext_getElem?
  intro t
  rcases Nat.lt_or_ge t orig.length with h | h
  · exact arrange_getElem? orig _ (isPerm_identity _).inRange t t (identityPerm_getElem? h)
  · rw [List.getElem?_eq_none h, List.getElem?_eq_none]
    rw [arrange_length orig _ (isPerm_identity _).inRange, identityPerm_length]
    exact h

theorem swap_nonneg {β : Type} {d d' : List β} {i j : Int} (h : swap d i j = Except.ok d') :
    ∃ a b : Nat, i = a ∧ j = b ∧ a < d.length ∧ b < d.length := by
  obtain ⟨x, y, hx, hy, -⟩ := swap_ok_iff.mp h
  have h1 := index_ok hx
  have h2 := index_ok hy
  refine ⟨i.toNat, j.toNat, (Int.toNat_of_nonneg h1.1).symm, (Int.toNat_of_nonneg h2.1).symm, ?_, ?_⟩
  · exact (List.getElem?_eq_some_iff.mp h1.2).1
  · exact (List.getElem?_eq_some_iff.mp h2.2).1

/-- A successful swap either exchanges nothing or exchanges two pieces. -/
theorem swap_cases {β : Type} {d d' : List β} {i j : Nat}
    (h : swap d (i : Int) (j : Int) = Except.ok d') :
    (i = j ∧ d' = d) ∨
    ∃ X M Y x y, d = X ++ x :: (M ++ y :: Y) ∧ d' = X ++ y :: (M ++ x :: Y) ∧
      min i j = X.length ∧ max i j = X.length + 1 + M.length := by
  obtain ⟨a, b, ha, hb, hai, hbj⟩ := swap_nonneg h
  have ha' : a = i := by exact_mod_cast ha.symm
  have hb' : b = j := by exact_mod_cast hb.symm
  subst ha'; subst hb'
  have key : ∀ (u v : Nat), u < v → v < d.length → ∀ e, swap d (u : Int) (v : Int) = Except.ok e →
      ∃ X M Y x y, d = X ++ x :: (M ++ y :: Y) ∧ e = X ++ y :: (M ++ x :: Y) ∧
        u = X.length ∧ v = X.length + 1 + M.length := by
    intro u v huv hv e he
    obtain ⟨X, M, Y, hd, hX, hM⟩ := split_two d u v huv hv
    have := swap_pieces X M Y d[u] d[v] u v hX.symm (by omega)
    rw [← hd, he] at this
    injection this with this
    exact ⟨X, M, Y, d[u], d[v], hd, this, hX.symm, by omega⟩
  rcases Nat.lt_trichotomy a b with hij | hij | hij
  · right
    obtain ⟨X, M, Y, x, y, h1, h2, h3, h4⟩ := key a b hij hbj d' h
    exact ⟨X, M, Y, x, y, h1, h2, by omega, by omega⟩
  · left
    subst hij
    rw [swap_self d a hai] at h
    injection h with h
    exact ⟨rfl, h.symm⟩
  · right
    rw [swap_comm d a b hai hbj] at h
    obtain ⟨X, M, Y, x, y, h1, h2, h3, h4⟩ := key b a hij hai d' h
    exact ⟨X, M, Y, x, y, h1, h2, by omega, by omega⟩

/-- The swaps made on a vector and mirrored on the collection keep the two in step. -/
theorem swap_mirror {β : Type} (orig : List β) {q q' : List Int} {i j : Int}
    (hq : InRange orig.length q) (h : swap q i j = Except.ok q') :
    swap (arrange orig q) i j = Except.ok (arrange orig q') := by
  obtain ⟨a, b, rfl, rfl, ha, hb⟩ := swap_nonneg h
  have hlen := arrange_length orig q hq
  rcases swap_cases h with ⟨hab, hd⟩ | ⟨X, M, Y, x, y, h1, h2, h3, h4⟩
  · subst hab
    rw [hd]
    exact swap_self _ a (by omega)
  · subst h1
    have hx := hq x (by simp)
    have hy := hq y (by simp)
    obtain ⟨kx, rfl⟩ := Int.eq_ofNat_of_zero_le hx.1
    obtain ⟨ky, rfl⟩ := Int.eq_ofNat_of_zero_le hy.1
    have hX : InRange orig.length X := fun z hz => hq z (by simp [hz])
    have hM : InRange orig.length M := fun z hz => hq z (by simp [hz])
    have hkx : kx < orig.length := by omega
    have hky : ky < orig.length := by omega
    have e1 : arrange orig (X ++ (kx : Int) :: (M ++ (ky : Int) :: Y))
        = arrange orig X ++ orig[kx] :: (arrange orig M ++ orig[ky] :: arrange orig Y) := by
      simp only [arrange_append, arrange_cons_natCast orig kx _ orig[kx] (List.getElem?_eq_getElem hkx),
        arrange_cons_natCast orig ky _ orig[ky] (List.getElem?_eq_getElem hky)]
    have e2 : arrange orig (X ++ (ky : Int) :: (M ++ (kx : Int) :: Y))
        = arrange orig X ++ orig[ky] :: (arrange orig M ++ orig[kx] :: arrange orig Y) := by
      simp only [arrange_append, arrange_cons_natCast orig kx _ orig[kx] (List.getElem?_eq_getElem hkx),
        arrange_cons_natCast orig ky _ orig[ky] (List.getElem?_eq_getElem hky)]
    rw [h2, e1, e2]
    have lX := arrange_length orig X hX
    have lM := arrange_length orig M hM
    rcases Nat.lt_or_ge a b with hab | hab
    · exact swap_pieces _ _ _ _ _ a b (by omega) (by omega)
    · rw [swap_comm _ a b (by rw [e1] at hlen; omega) (by rw [e1] at hlen; omega)]
      exact swap_pieces _ _ _ _ _ b a (by omega) (by omega)

theorem swap_isPerm {n : Nat} {q q' : List Int} {i j : Int} (hq : IsPerm n q)
    (h : swap q i j = Except.ok q') : IsPerm n q' := by
  obtain ⟨a, b, rfl, rfl, -, -⟩ := swap_nonneg h
  exact (swap_perm h).trans hq

theorem swap_getElem? {β : Type} {d d' : List β} {i j : Nat}
    (h : swap d (i : Int) (j : Int) = Except.ok d') (x : Nat) :
    d'[x]? = if x = j then d[i]? else if x = i then d[j]? else d[x]? := by
  obtain ⟨a, b, ha, hb, hai, hbj⟩ := swap_nonneg h
  have ha' : a = i := by exact_mod_cast ha.symm
  have hb' : b = j := by exact_mod_cast hb.symm
  subst ha'; subst hb'
  rw [swap_natCast d a b hai hbj] at h
  injection h with h
  subst h
  rw [List.getElem?_set, List.getElem?_set]
  by_cases h1 : x = b
  · subst h1
    simp [hbj, List.getElem?_eq_getElem hai]
  · by_cases h2 : x = a
    · subst h2
      simp [h1, Ne.symm h1, hai, List.getElem?_eq_getElem hbj]
    · simp [h1, h2, Ne.symm h1, Ne.symm h2]

theorem hop_of_getElem? {p : List Int} {s k : Nat} (h : p[s]? = some (k : Int)) : hop p s = k := by
  simp [hop, List.getD_eq_getElem?_getD, h]

/-- The chase loop follows `hop` until it reaches an index at or above `i`. -/
theorem chase_iterate (p : List Int) (hp : InRange p.length p) (i : Nat) (hi : i ≤ p.length) :
    ∀ (m fuel s : Nat), m ≤ fuel → (∀ k < m, (hop p)^[k] s < i) → i ≤ (hop p)^[m] s →
      chase p i fuel (s : Int) = Except.ok (((hop p)^[m] s : Nat) : Int) := by
  intro m
  induction m with
  | zero =>
    intro fuel s _ _ hge
    simp only [Function.iterate_zero, id_eq] at hge ⊢
    have : ¬ ((s : Int) < (i : Int)) := by omega
    cases fuel <;> simp [chase, this, pure, Except.pure]
  | succ m ih =>
    intro fuel s hm hlt hge
    obtain ⟨fuel', rfl⟩ : ∃ f, fuel = f + 1 := ⟨fuel - 1, by omega⟩
    have hs : s < i := by simpa using hlt 0 (by omega)
    have hs' : (s : Int) < (i : Int) := by omega
    obtain ⟨k, hk, hpk⟩ := hp.getElem? (show s < p.length by omega)
    have hh : hop p s = k := hop_of_getElem? hpk
    have := ih fuel' k (by omega)
      (fun k' hk' => by
        have := hlt (k' + 1) (by omega)
        rwa [Function.iterate_succ_apply, hh] at this)
      (by rwa [Function.iterate_succ_apply, hh] at hge)
    simp only [chase, hs', if_true, index_of_getElem? hpk, bind, Except.bind]
    rw [this, Function.iterate_succ_apply, hh]

/-- A chase that stays below `i` before leaving takes at most `i` steps. -/
theorem chase_steps_le (g : Nat → Nat) (i m s : Nat) (hlt : ∀ k < m, g^[k] s < i)
    (hge : i ≤ g^[m] s) : m ≤ i := by
  by_contra hcon
  have hmi : i < m := by omega
  have hmap : ∀ a ∈ Finset.range (i + 1), g^[a] s ∈ Finset.range i := by
    intro a ha
    simp only [Finset.mem_range] at ha ⊢
    exact hlt a (by omega)
  obtain ⟨a, ha, b, hb, hne, hab⟩ :=
    Finset.exists_ne_map_eq_of_card_lt_of_maps_to (by simp) hmap
  simp only [Finset.mem_range] at ha hb
  have key : ∀ a b : Nat, a < b → b < i + 1 → g^[a] s = g^[b] s → False := by
    intro a b hlt' hb' hab'
    have h1 : g^[m - b + a] s = g^[m] s := by
      rw [Function.iterate_add_apply, hab', ← Function.iterate_add_apply]
      congr 1; omega
    have h2 := hlt (m - b + a) (by omega)
    omega
  rcases Nat.lt_or_gt_of_ne hne with h | h
  · exact key a b h hb hab
  · exact key b a h ha hab.symm

theorem IsPerm.getElem?_inj {n : Nat} {q : List Int} (h : IsPerm n q) {a b : Nat} {x : Int}
    (ha : q[a]? = some x) (hb : q[b]? = some x) : a = b := by
  obtain ⟨ha1, ha2⟩ := List.getElem?_eq_some_iff.mp ha
  obtain ⟨hb1, hb2⟩ := List.getElem?_eq_some_iff.mp hb
  exact (List.Nodup.getElem_inj_iff h.nodup).mp (ha2.trans hb2.symm)

/-- Loop invariant of `apply`: the collection is the arrangement `r` of the
original, `r` agrees with `p` below `i`, and the entry of every later slot
chases to that slot. -/
theorem applyLoop_spec {β : Type} (orig : List β) (n : Nat) (p : List Int) (hp : IsPerm n p)
    (hn : orig.length = n) (fuel : Nat) (hf : n ≤ fuel) :
    ∀ (k i : Nat) (r : List Int), i + k = n → IsPerm n r → (∀ t < i, r[t]? = p[t]?) →
      (∀ t, i ≤ t → t < n → ∃ s m : Nat, r[t]? = some (s : Int) ∧ (hop p)^[m] s = t ∧
        ∀ c < m, (hop p)^[c] s < i) →
      applyLoop fuel p k i (arrange orig r) = Except.ok (arrange orig p) := by
  intro k
  induction k with
  | zero =>
    intro i r hik hr hlow _
    have : r = p := by
      apply List.ext_getElem?
      intro t
      rcases Nat.lt_or_ge t n with h | h
      · exact hlow t (by omega)
      · rw [List.getElem?_eq_none (by rw [hr.length]; exact h),
          List.getElem?_eq_none (by rw [hp.length]; exact h)]
    subst this
    simp [applyLoop, pure, Except.pure]
  | succ k ih =>
    intro i r hik hr hlow hchase
    have hin : i < n := by omega
    have hpl := hp.length
    have hrl := hr.length
    obtain ⟨s0, hs0, hps0⟩ := hp.inRange.getElem? (show i < p.length by omega)
    obtain ⟨t, htm⟩ := List.mem_iff_getElem?.mp (hr.mem hs0)
    have htn : t < n := by
      have := (List.getElem?_eq_some_iff.mp htm).1
      omega
    have hit : i ≤ t := by
      by_contra hcon
      have h1 : p[t]? = some (s0 : Int) := by rw [← hlow t (by omega)]; exact htm
      have := hp.getElem?_inj h1 hps0
      omega
    obtain ⟨s, m, hrs, hm, hmlt⟩ := hchase t hit htn
    have hss : s = s0 := by
      rw [htm] at hrs
      injection hrs with hrs
      exact_mod_cast hrs.symm
    subst hss
    have hmi : m ≤ i := chase_steps_le (hop p) i m s hmlt (by omega)
    have hch := chase_iterate p (by rw [hpl]; exact hp.inRange) i (by omega) m fuel s (by omega)
      hmlt (by omega)
    rw [hm] at hch
    obtain ⟨r', hr'⟩ : ∃ r', swap r (i : Int) (t : Int) = Except.ok r' :=
      ⟨_, swap_natCast r i t (by omega) (by omega)⟩
    have hmir := swap_mirror orig (by rw [hn]; exact hr.inRange) hr'
    simp only [applyLoop, index_of_getElem? hps0, hch, hmir, bind, Except.bind]
    apply ih (i + 1) r' (by omega) (swap_isPerm hr hr')
    · intro t' ht'
      rw [swap_getElem? hr' t']
      by_cases h1 : t' = t
      · have : t = i := by omega
        subst h1; subst this
        simp [htm, hps0]
      · by_cases h2 : t' = i
        · subst h2
          simp [h1, htm, hps0]
        · simp only [h1, h2, if_false]
          exact hlow t' (by omega)
    · intro t' ht' ht'n
      rw [swap_getElem? hr' t']
      by_cases h1 : t' = t
      · subst h1
        simp only [if_true]
        obtain ⟨s1, m1, hrs1, hm1, hm1lt⟩ := hchase i (le_refl _) hin
        refine ⟨s1, m + 1 + m1, hrs1, ?_, ?_⟩
        · rw [Function.iterate_add_apply, hm1, Function.iterate_succ_apply,
            hop_of_getElem? hps0, hm]
        · intro c hc
          rcases Nat.lt_or_ge c m1 with h3 | h3
          · have := hm1lt c h3
            omega
          · obtain ⟨e, rfl⟩ : ∃ e, c = e + m1 := ⟨c - m1, by omega⟩
            rw [Function.iterate_add_apply, hm1]
            cases e with
            | zero => simp
            | succ e =>
              rw [Function.iterate_succ_apply, hop_of_getElem? hps0]
              have := hmlt e (by omega)
              omega
      · have h2 : t' ≠ i := by omega
        simp only [h1, h2, if_false]
        obtain ⟨s1, m1, hrs1, hm1, hm1lt⟩ := hchase t' (by omega) ht'n
        exact ⟨s1, m1, hrs1, hm1, fun c hc => by have := hm1lt c hc; omega⟩

/-- On a valid vector `apply` terminates with fuel `n` and moves `d[p[i]]` to slot `i`. -/
theorem permApply_spec {β : Type} (d : List β) (n : Nat) (p : List Int) (hp : IsPerm n p)
    (hn : d.length = n) (fuel : Nat) (hf : n ≤ fuel) :
    perm.apply fuel p d = Except.ok (arrange d p) := by
  have h := applyLoop_spec d n p hp hn fuel hf n 0 (identityPerm n) (by omega) (isPerm_identity n)
    (fun t ht => by omega)
    (fun t _ ht => ⟨t, 0, identityPerm_getElem? ht, rfl, fun c hc => by omega⟩)
  rw [← hn, arrange_identity] at h
  rw [perm.apply, hp.length, ← hn]
  exact h

theorem assign_natCast (q : List Int) (s : Nat) (x : Int) (h : s < q.length) :
    assign q (s : Int) x = Except.ok (q.set s x) := by
  simp [assign, h, pure, Except.pure]

theorem isPerm_of_covers {n : Nat} {q : List Int} (hl : q.length = n)
    (hc : ∀ t < n, (t : Int) ∈ q) : IsPerm n q := by
  have hsub : identityPerm n ⊆ q := by
    intro x hx
    obtain ⟨h0, h1⟩ := mem_identityPerm.mp hx
    obtain ⟨k, rfl⟩ := Int.eq_ofNat_of_zero_le h0
    exact hc k (by omega)
  have hsp := List.subperm_of_subset (identityPerm_nodup n) hsub
  exact (hsp.perm_of_length_le (by rw [hl, identityPerm_length])).symm

theorem inverseLoop_spec (n : Nat) (p : List Int) (hp : IsPerm n p) :
    ∀ (k i : Nat) (q : List Int), i + k = n → q.length = n →
      (∀ t s : Nat, t < i → p[t]? = some (s : Int) → q[s]? = some (t : Int)) →
      ∃ q', inverseLoop p k i q = Except.ok q' ∧ q'.length = n ∧
        ∀ t s : Nat, p[t]? = some (s : Int) → q'[s]? = some (t : Int) := by
  intro k
  induction k with
  | zero =>
    intro i q hik hq hinv
    refine ⟨q, by simp [inverseLoop, pure, Except.pure], hq, ?_⟩
    intro t s hts
    have := (List.getElem?_eq_some_iff.mp hts).1
    exact hinv t s (by rw [hp.length] at this; omega) hts
  | succ k ih =>
    intro i q hik hq hinv
    obtain ⟨s0, hs0, hps0⟩ := hp.inRange.getElem? (show i < p.length by rw [hp.length]; omega)
    simp only [inverseLoop, index_of_getElem? hps0, assign_natCast q s0 (i : Int) (by omega),
      bind, Except.bind]
    apply ih (i + 1) (q.set s0 (i : Int)) (by omega) (by simpa using hq)
    intro t s ht hts
    rw [List.getElem?_set]
    by_cases h1 : s0 = s
    · subst h1
      have := hp.getElem?_inj hts hps0
      subst this
      simp [hq, hs0]
    · simp only [h1, if_false]
      have hti : t ≠ i := by
        rintro rfl
        rw [hps0] at hts
        injection hts with hts
        exact h1 (by exact_mod_cast hts)
      exact hinv t s (by omega) hts

/-- The `inverse` of a valid vector is the valid vector `q` with `q[p[t]] = t`. -/
theorem permInverse_spec (n : Nat) (p : List Int) (hp : IsPerm n p) :
    ∃ q, perm.inverse p = Except.ok q ∧ IsPerm n q ∧
      ∀ t s : Nat, p[t]? = some (s : Int) → q[s]? = some (t : Int) := by
  obtain ⟨q, h1, h2, h3⟩ := inverseLoop_spec n p hp n 0 (List.replicate p.length 0) (by omega)
    (by simp [hp.length]) (fun t s ht => by omega)
  refine ⟨q, by rw [perm.inverse]; rw [hp.length] at h1 ⊢; exact h1, ?_, h3⟩
  apply isPerm_of_covers h2
  intro t ht
  obtain ⟨s, -, hs⟩ := hp.inRange.getElem? (show t < p.length by rw [hp.length]; exact ht)
  exact List.mem_iff_getElem?.mpr ⟨s, h3 t s hs⟩

/-- Arranging by `p` and then by its inverse gives back the collection. -/
theorem arrange_inverse {β : Type} (d : List β) (n : Nat) (p q : List Int) (hp : IsPerm n p)
    (hq : IsPerm n q) (hn : d.length = n)
    (hinv : ∀ t s : Nat, p[t]? = some (s : Int) → q[s]? = some (t : Int)) :
    arrange (arrange d p) q = d := by
  have hlp : (arrange d p).length = n := by
    rw [arrange_length d p (by rw [hn]; exact hp.inRange), hp.length]
  have hlq : (arrange (arrange d p) q).length = n := by
    rw [arrange_length _ q (by rw [hlp]; exact hq.inRange), hq.length]
  apply List.ext_getElem?
  intro s
  rcases Nat.lt_or_ge s n with h | h
  · obtain ⟨t, ht⟩ := List.mem_iff_getElem?.mp (hp.mem h)
    have hqs := hinv t s ht
    rw [arrange_getElem? _ q (by rw [hlp]; exact hq.inRange) s t hqs]
    exact arrange_getElem? d p (by rw [hn]; exact hp.inRange) t s ht
  · rw [List.getElem?_eq_none (by omega), List.getElem?_eq_none (by omega)]

/-! ## Lexicographic order on vectors -/

theorem cons_lt_cons_iff (a b : Int) (l l' : List Int) :
    a :: l < b :: l' ↔ a < b ∨ (a = b ∧ l < l') := by
  constructor
  · intro h
    cases h with
    | cons h => exact Or.inr ⟨rfl, h⟩
    | rel h => exact Or.inl h
  · rintro (h | ⟨rfl, h⟩)
    · exact List.Lex.rel h
    · exact List.Lex.cons h

theorem cons_le_cons_same (a : Int) {l l' : List Int} (h : l ≤ l') : a :: l ≤ a :: l' := by
  rcases lt_or_eq_of_le h with h | h
  · exact le_of_lt ((cons_lt_cons_iff a a l l').mpr (Or.inr ⟨rfl, h⟩))
  · rw [h]

theorem append_le_append_left (A : List Int) {l l' : List Int} (h : l ≤ l') : A ++ l ≤ A ++ l' := by
  induction A with
  | nil => exact h
  | cons a A ih => exact cons_le_cons_same a ih

/-- A non-decreasing list is the least of its rearrangements. -/
theorem asc_le_of_perm : ∀ (l q : List Int), l.Pairwise (· ≤ ·) → q.Perm l → l ≤ q := by
  intro l
  induction l with
  | nil =>
    intro q _ hq
    rw [List.Perm.eq_nil hq]
  | cons a l ih =>
    intro q hl hq
    cases q with
    | nil => exact absurd (List.Perm.eq_nil hq.symm) (by simp)
    | cons c q =>
      have hc : c ∈ a :: l := (List.Perm.mem_iff hq).mp (List.mem_cons_self _ _)
      have hac : a ≤ c := by
        rcases List.mem_cons.mp hc with h | h
        · rw [h]
        · exact (List.pairwise_cons.mp hl).1 c h
      rcases lt_or_eq_of_le hac with h | h
      · exact le_of_lt ((cons_lt_cons_iff a c l q).mpr (Or.inl h))
      · subst h
        exact cons_le_cons_same a (ih q (List.pairwise_cons.mp hl).2 (List.Perm.cons_inv hq))

/-- A non-increasing list is the greatest of its rearrangements. -/
theorem le_desc_of_perm : ∀ (l q : List Int), l.Pairwise (· ≥ ·) → q.Perm l → q ≤ l := by
  intro l
  induction l with
  | nil =>
    intro q _ hq
    rw [List.Perm.eq_nil hq]
  | cons a l ih =>
    intro q hl hq
    cases q with
    | nil => exact absurd (List.Perm.eq_nil hq.symm) (by simp)
    | cons c q =>
      have hc : c ∈ a :: l := (List.Perm.mem_iff hq).mp (List.mem_cons_self _ _)
      have hac : c ≤ a := by
        rcases List.mem_cons.mp hc with h | h
        · rw [h]
        · exact (List.pairwise_cons.mp hl).1 c h
      rcases lt_or_eq_of_le hac with h | h
      · exact le_of_lt ((cons_lt_cons_iff c a q l).mpr (Or.inl h))
      · subst h
        exact cons_le_cons_same c (ih q (List.pairwise_cons.mp hl).2 (List.Perm.cons_inv hq))

theorem succOf_perm (A : List Int) (a : Int) (D1 : List Int) (b : Int) (D2 : List Int) :
    (succOf A a D1 b D2).Perm (A ++ a :: (D1 ++ b :: D2)) := by
  unfold succOf
  apply List.Perm.append_left
  have h1 : (a :: (D1 ++ b :: D2)).Perm (b :: a :: (D1 ++ D2)) :=
    (List.Perm.cons a List.perm_middle).trans (List.Perm.swap _ _ _)
  have h2 : (D2.reverse ++ a :: D1.reverse).Perm (a :: (D1 ++ D2)) := by
    refine List.perm_middle.trans (List.Perm.cons a ?_)
    exact (List.Perm.append (List.reverse_perm D2) (List.reverse_perm D1)).trans List.perm_append_comm
  exact (List.Perm.cons b h2).trans h1.symm

theorem lt_succOf (A : List Int) (a : Int) (D1 : List Int) (b : Int) (D2 : List Int) (hab : a < b) :
    A ++ a :: (D1 ++ b :: D2) < succOf A a D1 b D2 :=
  List.Lex.append_left _ (List.Lex.rel hab) A

/-- No rearrangement lies strictly between a vector and the one `next` produces. -/
theorem succOf_least (a : Int) (D1 : List Int) (b : Int) (D2 : List Int) (hab : a < b)
    (hD : (D1 ++ b :: D2).Pairwise (· ≥ ·)) (hD2 : ∀ y ∈ D2, y ≤ a) :
    ∀ (A q : List Int), q.Perm (A ++ a :: (D1 ++ b :: D2)) → A ++ a :: (D1 ++ b :: D2) < q →
      succOf A a D1 b D2 ≤ q := by
  intro A
  induction A with
  | nil =>
    intro q hq hlt
    cases q with
    | nil => exact absurd (List.Perm.eq_nil hq.symm) (by simp)
    | cons c q =>
      simp only [List.nil_append] at hq hlt
      simp only [succOf, List.nil_append]
      rcases (cons_lt_cons_iff _ _ _ _).mp hlt with h | ⟨h, h'⟩
      · have hc : c ∈ a :: (D1 ++ b :: D2) := (List.Perm.mem_iff hq).mp (List.mem_cons_self _ _)
        have hbc : b ≤ c := by
          rcases List.mem_cons.mp hc with h1 | h1
          · omega
          · rcases List.mem_append.mp h1 with h2 | h2
            · exact (List.pairwise_append.mp hD).2.2 c h2 b (List.mem_cons_self _ _)
            · rcases List.mem_cons.mp h2 with h3 | h3
              · rw [h3]
              · have := hD2 c h3
                omega
        rcases lt_or_eq_of_le hbc with h1 | h1
        · exact le_of_lt ((cons_lt_cons_iff _ _ _ _).mpr (Or.inl h1))
        · subst h1
          apply cons_le_cons_same
          have hpq : q.Perm (D2.reverse ++ a :: D1.reverse) := by
            have h1 : (a :: (D1 ++ b :: D2)).Perm (b :: (D2.reverse ++ a :: D1.reverse)) := by
              have := succOf_perm [] a D1 b D2
              simpa [succOf] using this.symm
            exact List.Perm.cons_inv (hq.trans h1)
          apply asc_le_of_perm _ _ _ hpq
          have hD1 := (List.pairwise_append.mp hD).1
          have hD2' := (List.pairwise_cons.mp (List.pairwise_append.mp hD).2.1).2
          have hcross := (List.pairwise_append.mp hD).2.2
          rw [List.pairwise_append]
          refine ⟨?_, ?_, ?_⟩
          · rw [List.pairwise_reverse]
            exact hD2'.imp (fun h => h)
          · rw [List.pairwise_cons]
            refine ⟨?_, ?_⟩
            · intro y hy
              have := hcross y (List.mem_reverse.mp hy) b (List.mem_cons_self _ _)
              omega
            · rw [List.pairwise_reverse]
              exact hD1.imp (fun h => h)
          · intro x hx y hy
            have hx' := hD2 x (List.mem_reverse.mp hx)
            rcases List.mem_cons.mp hy with h3 | h3
            · omega
            · have := hcross y (List.mem_reverse.mp h3) b (List.mem_cons_self _ _)
              omega
      · subst h
        have := le_desc_of_perm _ q hD (List.Perm.cons_inv hq)
        exact absurd h' (not_lt.mpr this)
  | cons x A ih =>
    intro q hq hlt
    cases q with
    | nil => exact absurd (List.Perm.eq_nil hq.symm) (by simp)
    | cons c q =>
      simp only [List.cons_append] at hq hlt
      simp only [succOf, List.cons_append]
      rcases (cons_lt_cons_iff _ _ _ _).mp hlt with h | ⟨h, h'⟩
      · exact le_of_lt ((cons_lt_cons_iff _ _ _ _).mpr (Or.inl h))
      · subst h
        exact cons_le_cons_same x (ih q (List.Perm.cons_inv hq) h')

/-- Every vector is non-increasing or has a last ascent. -/
theorem desc_or_ascent (p : List Int) :
    p.Pairwise (· ≥ ·) ∨ ∃ A a h D, p = A ++ a :: h :: D ∧ a < h ∧ (h :: D).Pairwise (· ≥ ·) := by
  induction p with
  | nil => exact Or.inl List.Pairwise.nil
  | cons x p ih =>
    rcases ih with h | ⟨A, a, h, D, rfl, hah, hD⟩
    · cases p with
      | nil => exact Or.inl (List.pairwise_singleton _ _)
      | cons y p =>
        rcases lt_or_ge x y with hxy | hxy
        · exact Or.inr ⟨[], x, y, p, rfl, hxy, h⟩
        · left
          rw [List.pairwise_cons]
          refine ⟨?_, h⟩
          intro z hz
          rcases List.mem_cons.mp hz with h1 | h1
          · rw [h1]; exact hxy
          · have := (List.pairwise_cons.mp h).1 z h1
            omega
    · exact Or.inr ⟨x :: A, a, h, D, rfl, hah, hD⟩

/-- A list with an entry above `a` splits at its last such entry. -/
theorem split_last_larger (a : Int) (D : List Int) (h : ∃ x ∈ D, a < x) :
    ∃ D1 b D2, D = D1 ++ b :: D2 ∧ a < b ∧ ∀ y ∈ D2, y ≤ a := by
  induction D with
  | nil => simp at h
  | cons x D ih =>
    by_cases hD : ∃ y ∈ D, a < y
    · obtain ⟨D1, b, D2, rfl, hb, h2⟩ := ih hD
      exact ⟨x :: D1, b, D2, rfl, hb, h2⟩
    · have hx : a < x := by
        obtain ⟨z, hz, haz⟩ := h
        rcases List.mem_cons.mp hz with h1 | h1
        · rw [← h1]; exact haz
        · exact absurd ⟨z, h1, haz⟩ hD
      refine ⟨[], x, D, rfl, hx, ?_⟩
      intro y hy
      by_contra hcon
      exact hD ⟨y, hy, by omega⟩

/-! ## `next` -/

theorem getElem?_append_cons {β : Type} (X Y : List β) (x : β) (k m : Nat) (hk : k = X.length + 1 + m) :
    (X ++ x :: Y)[k]? = Y[m]? := by
  subst hk
  induction X with
  | nil =>
    simp only [List.nil_append, List.length_nil]
    rw [show 0 + 1 + m = m + 1 by omega, List.getElem?_cons_succ]
  | cons a X ih =>
    simp only [List.cons_append, List.length_cons]
    rw [show X.length + 1 + 1 + m = (X.length + 1 + m) + 1 by omega, List.getElem?_cons_succ]
    exact ih

theorem pairwise_ge_getElem? {D : List Int} (hD : D.Pairwise (· ≥ ·)) {i j : Nat} {x y : Int}
    (hij : i < j) (hx : D[i]? = some x) (hy : D[j]? = some y) : x ≥ y := by
  obtain ⟨hi, rfl⟩ := List.getElem?_eq_some_iff.mp hx
  obtain ⟨hj, rfl⟩ := List.getElem?_eq_some_iff.mp hy
  exact (List.pairwise_iff_getElem.mp hD) i j hi hj hij

theorem scanAscent_desc (p : List Int) (hp : p.Pairwise (· ≥ ·)) :
    ∀ m, m ≤ p.length - 1 → scanAscent p m = Except.ok (-1) := by
  intro m
  induction m with
  | zero => intro _; simp [scanAscent, pure, Except.pure]
  | succ m ih =>
    intro hm
    have h1 : m < p.length := by omega
    have h2 : m + 1 < p.length := by omega
    have hge := pairwise_ge_getElem? hp (Nat.lt_succ_self m) (List.getElem?_eq_getElem h1)
      (List.getElem?_eq_getElem h2)
    have e : ((m : Int) + 1) = ((m + 1 : Nat) : Int) := by push_cast; rfl
    simp only [scanAscent, e, index_natCast p m h1, index_natCast p (m + 1) h2, bind, Except.bind]
    rw [if_pos hge]
    exact ih (by omega)

theorem scanAscent_ascent (A : List Int) (a h : Int) (D : List Int) (hah : a < h)
    (hD : (h :: D).Pairwise (· ≥ ·)) :
    ∀ m, A.length + 1 ≤ m → m ≤ (A ++ a :: h :: D).length - 1 →
      scanAscent (A ++ a :: h :: D) m = Except.ok (A.length : Int) := by
  intro m
  induction m with
  | zero => intro h0; omega
  | succ m ih =>
    intro h1 h2
    have e : ((m : Int) + 1) = ((m + 1 : Nat) : Int) := by push_cast; rfl
    simp only [List.length_append, List.length_cons] at h2
    rcases Nat.eq_or_lt_of_le h1 with h3 | h3
    · have hm : m = A.length := by omega
      have g1 : (A ++ a :: h :: D)[m]? = some a := getElem?_pieces A _ a m hm
      have g2 : (A ++ a :: h :: D)[m + 1]? = some h := by
        rw [getElem?_append_cons A _ a (m + 1) 0 (by omega)]
        simp
      simp only [scanAscent, e, index_of_getElem? g1, index_of_getElem? g2, bind, Except.bind]
      rw [if_neg (by omega)]
      simp [pure, Except.pure, hm]
    · have hk1 : m - A.length - 1 < (h :: D).length := by simp; omega
      have hk2 : m - A.length < (h :: D).length := by simp; omega
      have g1 : (A ++ a :: h :: D)[m]? = some (h :: D)[m - A.length - 1] := by
        rw [getElem?_append_cons A _ a m (m - A.length - 1) (by omega)]
        exact List.getElem?_eq_getElem hk1
      have g2 : (A ++ a :: h :: D)[m + 1]? = some (h :: D)[m - A.length] := by
        rw [getElem?_append_cons A _ a (m + 1) (m - A.length) (by omega)]
        exact List.getElem?_eq_getElem hk2
      have hge := pairwise_ge_getElem? hD (show m - A.length - 1 < m - A.length by omega)
        (List.getElem?_eq_getElem hk1) (List.getElem?_eq_getElem hk2)
      simp only [scanAscent, e, index_of_getElem? g1, index_of_getElem? g2, bind, Except.bind]
      rw [if_pos hge]
      exact ih (by omega) (by simp only [List.length_append, List.length_cons]; omega)

theorem scanLarger_spec (X : List Int) (b : Int) (D2 : List Int) (i : Nat) (a : Int)
    (hi : (X ++ b :: D2)[i]? = some a) (hab : a < b) (hD2 : ∀ y ∈ D2, y ≤ a) :
    ∀ m, X.length + 1 ≤ m → m ≤ (X ++ b :: D2).length →
      scanLarger (X ++ b :: D2) (i : Int) m = Except.ok (X.length : Int) := by
  intro m
  induction m with
  | zero => intro h0; omega
  | succ m ih =>
    intro h1 h2
    simp only [List.length_append, List.length_cons] at h2
    rcases Nat.eq_or_lt_of_le h1 with h3 | h3
    · have hm : m = X.length := by omega
      have g1 : (X ++ b :: D2)[m]? = some b := getElem?_pieces X _ b m hm
      simp only [scanLarger, index_of_getElem? hi, index_of_getElem? g1, bind, Except.bind]
      rw [if_neg (by omega)]
      simp [pure, Except.pure, hm]
    · have hk : m - X.length - 1 < D2.length := by omega
      have g1 : (X ++ b :: D2)[m]? = some D2[m - X.length - 1] := by
        rw [getElem?_append_cons X _ b m (m - X.length - 1) (by omega)]
        exact List.getElem?_eq_getElem hk
      have hle := hD2 _ (List.getElem_mem hk)
      simp only [scanLarger, index_of_getElem? hi, index_of_getElem? g1, bind, Except.bind]
      rw [if_pos hle]
      exact ih (by omega) (by simp only [List.length_append, List.length_cons]; omega)

theorem inRange_append {m : Nat} {X Y : List Int} :
    InRange m (X ++ Y) ↔ InRange m X ∧ InRange m Y := by
  unfold InRange
  simp only [List.mem_append]
  constructor
  · intro h; exact ⟨fun x hx => h x (Or.inl hx), fun x hx => h x (Or.inr hx)⟩
  · rintro ⟨h1, h2⟩ x (hx | hx)
    · exact h1 x hx
    · exact h2 x hx

theorem InRange.of_perm {m : Nat} {X Y : List Int} (h : X.Perm Y) (hY : InRange m Y) :
    InRange m X := fun x hx => hY x ((List.Perm.mem_iff h).mp hx)

/-- The reversal loop reverses the stretch between `l` and `r` on the vector
and on the collection alike. -/
theorem reverseLoop_spec {β : Type} (orig : List β) :
    ∀ (c : Nat) (M X Y : List Int) (l r : Nat), M.length ≤ c → l = X.length →
      r = X.length + M.length - 1 → InRange orig.length (X ++ (M ++ Y)) →
      reverseLoop l r (X ++ (M ++ Y)) (arrange orig (X ++ (M ++ Y)))
        = Except.ok (X ++ (M.reverse ++ Y), arrange orig (X ++ (M.reverse ++ Y))) := by
  intro c
  induction c with
  | zero =>
    intro M X Y l r hc hl hr _
    have : M = [] := List.length_eq_zero.mp (by omega)
    subst this
    cases r with
    | zero => simp [reverseLoop, pure, Except.pure]
    | succ r =>
      simp only [List.length_nil, Nat.add_zero] at hr
      simp [reverseLoop, show ¬ (l < r + 1) by omega, pure, Except.pure]
  | succ c ih =>
    intro M X Y l r hc hl hr hin
    cases M with
    | nil =>
      cases r with
      | zero => simp [reverseLoop, pure, Except.pure]
      | succ r =>
        simp only [List.length_nil, Nat.add_zero] at hr
        simp [reverseLoop, show ¬ (l < r + 1) by omega, pure, Except.pure]
    | cons x M =>
      rcases List.eq_nil_or_concat M with h | ⟨M', y, h⟩
      · subst h
        cases r with
        | zero => simp [reverseLoop, pure, Except.pure]
        | succ r =>
          simp only [List.length_cons, List.length_nil] at hr
          simp [reverseLoop, show ¬ (l < r + 1) by omega, pure, Except.pure]
      · rw [List.concat_eq_append] at h
        subst h
        simp only [List.length_cons, List.length_append, List.length_nil] at hr hc
        obtain ⟨r', rfl⟩ : ∃ r', r = r' + 1 := ⟨r - 1, by omega⟩
        have e : ((r' : Int) + 1) = ((r' + 1 : Nat) : Int) := by push_cast; rfl
        have e1 : X ++ (x :: (M' ++ [y]) ++ Y) = X ++ x :: (M' ++ y :: Y) := by simp
        have hsw := swap_pieces X M' Y x y l (r' + 1) hl (by omega)
        have hin' : InRange orig.length (X ++ x :: (M' ++ y :: Y)) := by rw [← e1]; exact hin
        have hmir := swap_mirror orig hin' hsw
        have e2 : X ++ y :: (M' ++ x :: Y) = (X ++ [y]) ++ (M' ++ ([x] ++ Y)) := by simp
        have e3 : X ++ ((x :: (M' ++ [y])).reverse ++ Y) = (X ++ [y]) ++ (M'.reverse ++ ([x] ++ Y)) := by
          simp
        have hin2 : InRange orig.length ((X ++ [y]) ++ (M' ++ ([x] ++ Y))) := by
          rw [← e2]
          exact InRange.of_perm (swap_perm hsw) hin'
        have := ih M' (X ++ [y]) ([x] ++ Y) (l + 1) r' (by omega) (by simp [hl])
          (by simp; omega) hin2
        rw [e1, e3, ← this, ← e2]
        simp only [reverseLoop, show l < r' + 1 by omega, if_true, e, hsw, hmir, bind, Except.bind]

theorem permNext_last {β : Type} (p : List Int) (d : List β) (hp : p.Pairwise (· ≥ ·))
    (hl : p.length = d.length) : perm.next p d = Except.ok (false, p, d) := by
  have h := scanAscent_desc p hp (p.length - 1) (le_refl _)
  unfold perm.next
  rw [if_neg (by simpa using hl)]
  simp only [h, bind, Except.bind]
  simp [pure, Except.pure]

theorem permNext_step {β : Type} (orig : List β) (A : List Int) (a : Int) (D1 : List Int) (b : Int)
    (D2 : List Int) (hab : a < b) (hD : (D1 ++ b :: D2).Pairwise (· ≥ ·)) (hD2 : ∀ y ∈ D2, y ≤ a)
    (hin : InRange orig.length (A ++ a :: (D1 ++ b :: D2)))
    (hl : (A ++ a :: (D1 ++ b :: D2)).length = orig.length) :
    perm.next (A ++ a :: (D1 ++ b :: D2)) (arrange orig (A ++ a :: (D1 ++ b :: D2)))
      = Except.ok (true, succOf A a D1 b D2, arrange orig (succOf A a D1 b D2)) := by
  have hlen := arrange_length orig _ hin
  obtain ⟨h, D', hhD, hah⟩ : ∃ h D', D1 ++ b :: D2 = h :: D' ∧ a < h := by
    cases D1 with
    | nil => exact ⟨b, D2, rfl, hab⟩
    | cons x D1 =>
      refine ⟨x, D1 ++ b :: D2, rfl, ?_⟩
      have := (List.pairwise_cons.mp hD).1 b (by simp)
      omega
  have h1 : scanAscent (A ++ a :: (D1 ++ b :: D2)) ((A ++ a :: (D1 ++ b :: D2)).length - 1)
      = Except.ok (A.length : Int) := by
    rw [hhD]
    rw [hhD] at hD
    exact scanAscent_ascent A a h D' hah hD _ (by simp) (le_refl _)
  have e1 : A ++ a :: (D1 ++ b :: D2) = (A ++ a :: D1) ++ b :: D2 := by simp
  have hia : (A ++ a :: (D1 ++ b :: D2))[A.length]? = some a := getElem?_pieces A _ a _ rfl
  have h2 : scanLarger (A ++ a :: (D1 ++ b :: D2)) (A.length : Int) (A ++ a :: (D1 ++ b :: D2)).length
      = Except.ok ((A.length + 1 + D1.length : Nat) : Int) := by
    have := scanLarger_spec (A ++ a :: D1) b D2 A.length a (by rw [← e1]; exact hia) hab hD2
      ((A ++ a :: D1) ++ b :: D2).length (by simp; omega) (le_refl _)
    rw [← e1] at this
    rw [this]
    simp
    omega
  have h3 := swap_pieces A D1 D2 a b A.length (A.length + 1 + D1.length) rfl rfl
  have h4 := swap_mirror orig hin h3
  have e2 : A ++ b :: (D1 ++ a :: D2) = (A ++ [b]) ++ ((D1 ++ a :: D2) ++ []) := by simp
  have e3 : succOf A a D1 b D2 = (A ++ [b]) ++ ((D1 ++ a :: D2).reverse ++ []) := by
    simp [succOf]
  have hin2 : InRange orig.length ((A ++ [b]) ++ ((D1 ++ a :: D2) ++ [])) := by
    rw [← e2]
    exact InRange.of_perm (swap_perm h3) hin
  have h5 := reverseLoop_spec orig (D1 ++ a :: D2).length (D1 ++ a :: D2) (A ++ [b]) []
    (A.length + 1) ((A ++ a :: (D1 ++ b :: D2)).length - 1) (le_refl _) (by simp)
    (by simp) hin2
  rw [← e2, ← e3] at h5
  unfold perm.next
  rw [if_neg (by rw [hlen]; simp)]
  simp only [h1, bind, Except.bind]
  rw [if_neg (by omega)]
  simp only [h2, h3, h4, Int.toNat_ofNat, h5]
  rfl

/-- Calling `next` on a valid vector in step with the collection: it either reports
the greatest vector and changes nothing, or moves vector and collection to the
least greater vector. -/
theorem permNext_spec {β : Type} (orig : List β) (n : Nat) (p : List Int) (hp : IsPerm n p)
    (hn : orig.length = n) :
    ((∀ q, IsPerm n q → q ≤ p) ∧
      perm.next p (arrange orig p) = Except.ok (false, p, arrange orig p)) ∨
    (∃ p', perm.next p (arrange orig p) = Except.ok (true, p', arrange orig p') ∧ IsPerm n p' ∧
      p < p' ∧ ∀ q, IsPerm n q → p < q → p' ≤ q) := by
  have hin : InRange orig.length p := by rw [hn]; exact hp.inRange
  rcases desc_or_ascent p with hdesc | ⟨A, a, h, D, rfl, hah, hD⟩
  · left
    refine ⟨fun q hq => le_desc_of_perm p q hdesc (hq.trans hp.symm), ?_⟩
    exact permNext_last p _ hdesc (by rw [arrange_length orig p hin])
  · right
    obtain ⟨D1, b, D2, hsplit, hb, hD2⟩ := split_last_larger a (h :: D) ⟨h, by simp, hah⟩
    rw [hsplit] at hD hp hin ⊢
    refine ⟨succOf A a D1 b D2, ?_, ?_, ?_, ?_⟩
    · exact permNext_step orig A a D1 b D2 hb hD hD2 hin (by rw [hp.length, hn])
    · exact (succOf_perm A a D1 b D2).trans hp
    · exact lt_succOf A a D1 b D2 hb
    · intro q hq hlt
      exact succOf_least a D1 b D2 hb hD hD2 A q (hq.trans hp.symm) hlt

/-! ## The lexicographic enumeration -/

theorem length_flatMap_const {γ δ : Type} (l : List γ) (f : γ → List δ) (c : Nat)
    (h : ∀ x ∈ l, (f x).length = c) : (l.flatMap f).length = l.length * c := by
  induction l with
  | nil => simp
  | cons a l ih =>
    rw [List.flatMap_cons, List.length_append, h a (List.mem_cons_self _ _),
      ih (fun x hx => h x (List.mem_cons_of_mem _ hx)), List.length_cons]
    ring

theorem lexPermsAux_length : ∀ (k : Nat) (l : List Int), l.length = k →
    (lexPermsAux k l).length = k.factorial := by
  intro k
  induction k with
  | zero => intro l _; simp [lexPermsAux]
  | succ k ih =>
    intro l hl
    rw [lexPermsAux, length_flatMap_const l _ k.factorial, hl, Nat.factorial_succ]
    intro x hx
    rw [List.length_map]
    exact ih _ (by rw [List.length_erase_of_mem hx, hl]; rfl)

theorem lexPermsAux_mem : ∀ (k : Nat) (l q : List Int), l.length = k →
    (q ∈ lexPermsAux k l ↔ q.Perm l) := by
  intro k
  induction k with
  | zero =>
    intro l q hl
    have : l = [] := List.length_eq_zero.mp hl
    subst this
    simp [lexPermsAux]
  | succ k ih =>
    intro l q hl
    simp only [lexPermsAux, List.mem_flatMap, List.mem_map]
    constructor
    · rintro ⟨x, hx, t, ht, rfl⟩
      have := (ih (l.erase x) t (by rw [List.length_erase_of_mem hx, hl]; rfl)).mp ht
      exact (List.Perm.cons x this).trans (List.perm_cons_erase hx).symm
    · intro hq
      cases q with
      | nil =>
        have := List.Perm.length_eq hq
        simp [hl] at this
      | cons x t =>
        have hx : x ∈ l := (List.Perm.mem_iff hq).mp (List.mem_cons_self _ _)
        refine ⟨x, hx, t, ?_, rfl⟩
        apply (ih (l.erase x) t (by rw [List.length_erase_of_mem hx, hl]; rfl)).mpr
        exact List.Perm.cons_inv (hq.trans (List.perm_cons_erase hx))

theorem lexPermsAux_sorted : ∀ (k : Nat) (l : List Int), l.Pairwise (· < ·) →
    (lexPermsAux k l).Pairwise (· < ·) := by
  intro k
  induction k with
  | zero => intro l _; simp [lexPermsAux]
  | succ k ih =>
    intro l hl
    rw [lexPermsAux, List.pairwise_flatMap]
    refine ⟨?_, ?_⟩
    · intro x _
      rw [List.pairwise_map]
      exact (ih (l.erase x) (hl.sublist (List.erase_sublist x l))).imp
        (fun h => (cons_lt_cons_iff _ _ _ _).mpr (Or.inr ⟨rfl, h⟩))
    · refine hl.imp ?_
      intro a b hab u hu v hv
      obtain ⟨t, -, rfl⟩ := List.mem_map.mp hu
      obtain ⟨t', -, rfl⟩ := List.mem_map.mp hv
      exact (cons_lt_cons_iff _ _ _ _).mpr (Or.inl hab)

theorem identityPerm_sorted (n : Nat) : (identityPerm n).Pairwise (· < ·) := by
  unfold identityPerm
  rw [List.pairwise_map]
  exact (List.pairwise_lt_range n).imp (fun h => Int.ofNat_lt.mpr h)

theorem lexPerms_length (n : Nat) : (lexPerms n).length = n.factorial :=
  lexPermsAux_length n _ (identityPerm_length n)

theorem lexPerms_mem (n : Nat) (q : List Int) : q ∈ lexPerms n ↔ IsPerm n q :=
  lexPermsAux_mem n _ q (identityPerm_length n)

theorem lexPerms_sorted (n : Nat) : (lexPerms n).Pairwise (· < ·) :=
  lexPermsAux_sorted n _ (identityPerm_sorted n)

theorem lexPerms_lt (n : Nat) {i j : Nat} {x y : List Int} (hij : i < j)
    (hx : (lexPerms n)[i]? = some x) (hy : (lexPerms n)[j]? = some y) : x < y := by
  obtain ⟨hi, rfl⟩ := List.getElem?_eq_some_iff.mp hx
  obtain ⟨hj, rfl⟩ := List.getElem?_eq_some_iff.mp hy
  exact (List.pairwise_iff_getElem.mp (lexPerms_sorted n)) i j hi hj hij

theorem lexPerms_le (n : Nat) {i j : Nat} {x y : List Int} (hij : i ≤ j)
    (hx : (lexPerms n)[i]? = some x) (hy : (lexPerms n)[j]? = some y) : x ≤ y := by
  rcases Nat.eq_or_lt_of_le hij with h | h
  · subst h
    rw [hx] at hy
    injection hy with hy
    rw [hy]
  · exact le_of_lt (lexPerms_lt n h hx hy)

theorem lexPerms_isPerm (n : Nat) {i : Nat} {x : List Int} (hx : (lexPerms n)[i]? = some x) :
    IsPerm n x :=
  (lexPerms_mem n x).mp (List.mem_iff_getElem?.mpr ⟨i, hx⟩)

/-- Rank 0 is the identity. -/
theorem lexPerms_zero (n : Nat) : (lexPerms n)[0]? = some (identityPerm n) := by
  obtain ⟨k, hk⟩ := List.mem_iff_getElem?.mp ((lexPerms_mem n _).mpr (isPerm_identity n))
  rcases Nat.eq_zero_or_pos k with h | h
  · rw [← h]; exact hk
  · have h0 : 0 < (lexPerms n).length := by
      have := (List.getElem?_eq_some_iff.mp hk).1
      omega
    have hlt := lexPerms_lt n h (List.getElem?_eq_getElem h0) hk
    have hle := asc_le_of_perm (identityPerm n) _ ((identityPerm_sorted n).imp (fun h => le_of_lt h))
      (lexPerms_isPerm n (List.getElem?_eq_getElem h0))
    exact absurd hlt (not_lt.mpr hle)

/-- On the vector of rank `k`, `next` yields the vector of rank `k + 1`, and
reports exhaustion at the last rank. -/
theorem permNext_rank {β : Type} (orig : List β) (n k : Nat) (p : List Int) (hn : orig.length = n)
    (hp : (lexPerms n)[k]? = some p) :
    (k + 1 = n.factorial ∧
      perm.next p (arrange orig p) = Except.ok (false, p, arrange orig p)) ∨
    (∃ p', (lexPerms n)[k + 1]? = some p' ∧
      perm.next p (arrange orig p) = Except.ok (true, p', arrange orig p')) := by
  have hk : k < n.factorial := by
    have := (List.getElem?_eq_some_iff.mp hp).1
    rwa [lexPerms_length] at this
  rcases permNext_spec orig n p (lexPerms_isPerm n hp) hn with ⟨hmax, hres⟩ | ⟨p', hres, hp', hlt, hleast⟩
  · left
    refine ⟨?_, hres⟩
    by_contra hcon
    have h1 : k + 1 < (lexPerms n).length := by rw [lexPerms_length]; omega
    have h2 := lexPerms_lt n (Nat.lt_succ_self k) hp (List.getElem?_eq_getElem h1)
    have h3 := hmax _ (lexPerms_isPerm n (List.getElem?_eq_getElem h1))
    exact absurd h2 (not_lt.mpr h3)
  · right
    obtain ⟨m, hm⟩ := List.mem_iff_getElem?.mp ((lexPerms_mem n _).mpr hp')
    have hkm : k < m := by
      by_contra hcon
      have := lexPerms_le n (show m ≤ k by omega) hm hp
      exact absurd hlt (not_lt.mpr this)
    have hmn : m < (lexPerms n).length := (List.getElem?_eq_some_iff.mp hm).1
    have h1 : k + 1 < (lexPerms n).length := by omega
    have hmk : m ≤ k + 1 := by
      by_contra hcon
      have h2 := lexPerms_lt n (Nat.lt_succ_self k) hp (List.getElem?_eq_getElem h1)
      have h3 := hleast _ (lexPerms_isPerm n (List.getElem?_eq_getElem h1)) h2
      have h4 := lexPerms_lt n (show k + 1 < m by omega) (List.getElem?_eq_getElem h1) hm
      exact absurd h4 (not_lt.mpr h3)
    have : m = k + 1 := by omega
    subst this
    exact ⟨p', hm, hres⟩

/-! ## Factoradic digits -/

theorem factLoop_snoc : ∀ (k : Nat) (i : Int) (j : Nat),
    factLoop i j (k + 1) = ((factLoop i j k).1 ++ [Int.tmod (factLoop i j k).2 ((j + k : Nat) : Int)],
      Int.tdiv (factLoop i j k).2 ((j + k : Nat) : Int)) := by
  intro k
  induction k with
  | zero => intro i j; simp [factLoop]
  | succ k ih =>
    intro i j
    rw [factLoop, ih (Int.tdiv i j) (j + 1)]
    simp only [factLoop, List.cons_append]
    rw [show j + 1 + k = j + (k + 1) by omega]

theorem factLoop_length : ∀ (k : Nat) (i : Int) (j : Nat), (factLoop i j k).1.length = k := by
  intro k
  induction k with
  | zero => intro i j; simp [factLoop]
  | succ k ih => intro i j; simp [factLoop, ih]

/-- For a non-negative rank the loop of `newFact` computes the factoradic
digits and leaves the quotient by the factorial. -/
theorem factLoop_natCast (r : Nat) : ∀ m : Nat,
    factLoop (r : Int) 2 m =
      ((List.range m).map (fun t => ((r / (t + 1).factorial % (t + 2) : Nat) : Int)),
        ((r / (m + 1).factorial : Nat) : Int)) := by
  intro m
  induction m with
  | zero => simp [factLoop]
  | succ m ih =>
    rw [factLoop_snoc, ih]
    simp only [List.range_succ, List.map_append, List.map_cons, List.map_nil]
    rw [← Int.ofNat_tmod, ← Int.ofNat_tdiv, Nat.div_div_eq_div_mul,
      show (m + 1).factorial * (2 + m) = (m + 1 + 1).factorial by
        rw [Nat.factorial_succ (m + 1)]; ring,
      show 2 + m = m + 2 by omega]

theorem factLoop_neg : ∀ (k : Nat) (i : Int) (j : Nat),
    factLoop (-i) j k = ((factLoop i j k).1.map (fun x => -x), -(factLoop i j k).2) := by
  intro k
  induction k with
  | zero => intro i j; simp [factLoop]
  | succ k ih =>
    intro i j
    simp only [factLoop, Int.neg_tdiv, ih, List.map_cons]
    rw [Int.tmod_def, Int.tmod_def, Int.neg_tdiv]
    congr 2
    ring

theorem digit_mod_factorial (r m t : Nat) (ht : t < m) :
    (r % (m + 1).factorial) / (t + 1).factorial % (t + 2) = r / (t + 1).factorial % (t + 2) := by
  have hdvd : (t + 1).factorial * (t + 2) ∣ (m + 1).factorial := by
    have : (t + 1).factorial * (t + 2) = (t + 2).factorial := by
      rw [Nat.factorial_succ (t + 1)]; ring
    rw [this]
    exact Nat.factorial_dvd_factorial (by omega)
  rw [← Nat.mod_mul_right_div_self, ← Nat.mod_mul_right_div_self r, Nat.mod_mod_of_dvd _ hdvd]

/-- Read from the most significant end, the digits `newFact` writes are `digitsMsd`. -/
theorem digits_reverse : ∀ (m r : Nat), r < (m + 1).factorial →
    ((List.range m).map (fun t => r / (t + 1).factorial % (t + 2))).reverse = digitsMsd m r := by
  intro m
  induction m with
  | zero => intro r _; simp [digitsMsd]
  | succ m ih =>
    intro r hr
    rw [List.range_succ, List.map_append, List.reverse_append]
    simp only [List.map_cons, List.map_nil, List.reverse_cons, List.reverse_nil, List.nil_append,
      List.singleton_append, digitsMsd]
    have hq : r / (m + 1).factorial < m + 2 := by
      rw [Nat.div_lt_iff_lt_mul (Nat.factorial_pos _)]
      rw [Nat.factorial_succ (m + 1)] at hr
      calc r < (m + 1 + 1) * (m + 1).factorial := hr
        _ = (m + 2) * (m + 1).factorial := by ring
    rw [Nat.mod_eq_of_lt hq]
    congr 1
    rw [← ih (r % (m + 1).factorial) (Nat.mod_lt _ (Nat.factorial_pos _))]
    congr 1
    apply List.map_congr_left
    intro t ht
    exact (digit_mod_factorial r m t (List.mem_range.mp ht)).symm

theorem digitsMsd_length : ∀ (m r : Nat), (digitsMsd m r).length = m := by
  intro m
  induction m with
  | zero => intro r; simp [digitsMsd]
  | succ m ih => intro r; simp [digitsMsd, ih]

theorem digitsMsd_zero : ∀ (m r : Nat), r < (m + 1).factorial → (∀ d ∈ digitsMsd m r, d = 0) → r = 0 := by
  intro m
  induction m with
  | zero => intro r hr _; simpa using hr
  | succ m ih =>
    intro r hr hall
    simp only [digitsMsd, List.mem_cons, forall_eq_or_imp] at hall
    have h1 : r < (m + 1).factorial := by
      rcases Nat.lt_or_ge r (m + 1).factorial with h | h
      · exact h
      · have := Nat.div_pos h (Nat.factorial_pos _)
        omega
    rw [Nat.mod_eq_of_lt h1] at hall
    exact ih r h1 hall.2

theorem flatMap_getElem? {γ δ : Type} (f : γ → List δ) (c : Nat) :
    ∀ (l : List γ) (q t : Nat) (x : γ), (∀ y ∈ l, (f y).length = c) → t < c → l[q]? = some x →
      (l.flatMap f)[q * c + t]? = (f x)[t]? := by
  intro l
  induction l with
  | nil => intro q t x _ _ hx; simp at hx
  | cons a l ih =>
    intro q t x hl ht hx
    have ha := hl a (List.mem_cons_self _ _)
    rw [List.flatMap_cons]
    cases q with
    | zero =>
      simp only [List.getElem?_cons_zero, Option.some.injEq] at hx
      subst hx
      rw [Nat.zero_mul, Nat.zero_add, List.getElem?_append_left (by omega)]
    | succ q =>
      simp only [List.getElem?_cons_succ] at hx
      rw [List.getElem?_append_right (by rw [ha]; nlinarith)]
      rw [ha, show (q + 1) * c + t - c = q * c + t by
        rw [Nat.add_mul, Nat.one_mul]; omega]
      exact ih q t x (fun y hy => hl y (List.mem_cons_of_mem _ hy)) ht hx

theorem erase_getElem_eq_eraseIdx (l : List Int) (hl : l.Nodup) (q : Nat) (x : Int)
    (hx : l[q]? = some x) : l.erase x = l.eraseIdx q := by
  induction l generalizing q with
  | nil => simp
  | cons a l ih =>
    cases q with
    | zero =>
      simp only [List.getElem?_cons_zero, Option.some.injEq] at hx
      subst hx
      simp
    | succ q =>
      simp only [List.getElem?_cons_succ] at hx
      have hmem : x ∈ l := List.mem_iff_getElem?.mpr ⟨q, hx⟩
      have hne : a ≠ x := by
        rintro rfl
        exact (List.nodup_cons.mp hl).1 hmem
      rw [List.erase_cons_tail (by simpa using hne), List.eraseIdx_cons_succ,
        ih (List.nodup_cons.mp hl).2 q hx]

/-- The entry of rank `r` of the enumeration is selected by the digits of `r`. -/
theorem lexPermsAux_getElem? : ∀ (m : Nat) (l : List Int) (r : Nat), l.length = m + 1 → l.Nodup →
    r < (m + 1).factorial → (lexPermsAux (m + 1) l)[r]? = some (decode (digitsMsd m r) l) := by
  intro m
  induction m with
  | zero =>
    intro l r hl _ hr
    have hr0 : r = 0 := by simpa using hr
    subst hr0
    obtain ⟨x, rfl⟩ := List.length_eq_one.mp hl
    simp [lexPermsAux, digitsMsd, decode]
  | succ m ih =>
    intro l r hl hnd hr
    have hq : r / (m + 1).factorial < m + 2 := by
      rw [Nat.div_lt_iff_lt_mul (Nat.factorial_pos _)]
      rw [Nat.factorial_succ (m + 1)] at hr
      calc r < (m + 1 + 1) * (m + 1).factorial := hr
        _ = (m + 2) * (m + 1).factorial := by ring
    have ht : r % (m + 1).factorial < (m + 1).factorial := Nat.mod_lt _ (Nat.factorial_pos _)
    have hx : l[r / (m + 1).factorial]? = some l[r / (m + 1).factorial] :=
      List.getElem?_eq_getElem (by omega)
    have hxm : l[r / (m + 1).factorial] ∈ l := List.getElem_mem _
    have hblock : ∀ y ∈ l, ((lexPermsAux (m + 1) (l.erase y)).map (fun t => y :: t)).length
        = (m + 1).factorial := by
      intro y hy
      rw [List.length_map]
      exact lexPermsAux_length _ _ (by rw [List.length_erase_of_mem hy, hl]; rfl)
    have hr' : r = r / (m + 1).factorial * (m + 1).factorial + r % (m + 1).factorial :=
      (Nat.div_add_mod' r _).symm
    rw [lexPermsAux]
    conv => lhs; rw [hr']
    rw [flatMap_getElem? _ (m + 1).factorial l _ _ _ hblock ht hx, List.getElem?_map,
      ih _ _ (by rw [List.length_erase_of_mem hxm, hl]; rfl) (hnd.erase _) ht]
    simp only [Option.map_some', digitsMsd, decode, hx]
    rw [erase_getElem_eq_eraseIdx l hnd _ _ hx]

theorem rotate_pieces (P l : List Int) (i d : Nat) (x : Int) (hi : i = P.length)
    (hx : l[d]? = some x) :
    rotate (P ++ l) i ((i : Int) + (d : Int)) = Except.ok (P ++ x :: l.eraseIdx d) := by
  have hd : d < l.length := (List.getElem?_eq_some_iff.mp hx).1
  have e : (i : Int) + (d : Int) = ((i + d : Nat) : Int) := by push_cast; rfl
  have hidx : (P ++ l)[i + d]? = some x := by
    rw [List.getElem?_append_right (by omega), show i + d - P.length = d by omega]
    exact hx
  unfold rotate
  rw [e, index_of_getElem? hidx]
  simp only [bind, Except.bind]
  rw [if_neg (by omega)]
  simp only [pure, Except.pure, Int.toNat_ofNat]
  congr 1
  subst hi
  rw [List.take_left' rfl, List.drop_left' rfl, show P.length + d - P.length = d by omega,
    show P.length + d + 1 = P.length + (d + 1) by omega, List.drop_append,
    List.eraseIdx_eq_take_drop_succ]

/-- The loop of `fact.perm` decodes the remaining digits on the unprocessed part. -/
theorem permLoop_decode (f : List Int) : ∀ (m i r : Nat) (P l : List Int), i + m = f.length →
    i = P.length → l.length = m + 1 → r < (m + 1).factorial →
    f.reverse.drop i = (digitsMsd m r).map (fun (d : Nat) => (d : Int)) →
    permLoop f m i (P ++ l) = Except.ok (P ++ decode (digitsMsd m r) l) := by
  intro m
  induction m with
  | zero => intro i r P l _ _ _ _ _; simp [permLoop, digitsMsd, decode, pure, Except.pure]
  | succ m ih =>
    intro i r P l him hi hl hr hf
    have hq : r / (m + 1).factorial < m + 2 := by
      rw [Nat.div_lt_iff_lt_mul (Nat.factorial_pos _)]
      rw [Nat.factorial_succ (m + 1)] at hr
      calc r < (m + 1 + 1) * (m + 1).factorial := hr
        _ = (m + 2) * (m + 1).factorial := by ring
    have ht : r % (m + 1).factorial < (m + 1).factorial := Nat.mod_lt _ (Nat.factorial_pos _)
    simp only [digitsMsd, List.map_cons] at hf
    have hfi : f.reverse[i]? = some ((r / (m + 1).factorial : Nat) : Int) := by
      have := congrArg (fun z => z[0]?) hf
      simpa using this
    have hfd : f.reverse.drop (i + 1) = (digitsMsd m (r % (m + 1).factorial)).map (fun (d : Nat) => (d : Int)) := by
      have := congrArg (fun z => z.drop 1) hf
      simpa using this
    have hfi' : f[f.length - 1 - i]? = some ((r / (m + 1).factorial : Nat) : Int) := by
      rw [List.getElem?_reverse (by omega)] at hfi
      exact hfi
    have e : (f.length : Int) - 1 - (i : Int) = ((f.length - 1 - i : Nat) : Int) := by omega
    have hx : l[r / (m + 1).factorial]? = some l[r / (m + 1).factorial] :=
      List.getElem?_eq_getElem (by omega)
    have hrot := rotate_pieces P l i (r / (m + 1).factorial) _ hi hx
    have := ih (i + 1) (r % (m + 1).factorial) (P ++ [l[r / (m + 1).factorial]])
      (l.eraseIdx (r / (m + 1).factorial)) (by omega) (by simp [hi])
      (by rw [List.length_eraseIdx]; simp [hl]; omega) ht hfd
    simp only [permLoop, e, index_of_getElem? hfi', hrot, bind, Except.bind]
    simp only [List.append_assoc, List.singleton_append] at this
    rw [this]
    simp [digitsMsd, decode, hx]

theorem newFact_natCast (r n : Nat) (hn : 1 ≤ n) :
    newFact (r : Int) n =
      Except.ok ((List.range (n - 1)).map (fun t => ((r / (t + 1).factorial % (t + 2) : Nat) : Int)),
        decide (r / n.factorial = 0)) := by
  unfold newFact
  rw [if_neg (by omega), factLoop_natCast r (n - 1), show n - 1 + 1 = n by omega]
  simp only [pure, Except.pure]
  congr 2
  apply decide_eq_decide.mpr
  norm_cast

/-- Decoding a rank below `n!` succeeds and yields the vector of that rank. -/
theorem unrank_spec (r n : Nat) (hn : 1 ≤ n) (hr : r < n.factorial) :
    ∃ f p, newFact (r : Int) n = Except.ok (f, true) ∧ fact.perm f = Except.ok p ∧
      (lexPerms n)[r]? = some p := by
  obtain ⟨m, rfl⟩ : ∃ m, n = m + 1 := ⟨n - 1, by omega⟩
  refine ⟨(List.range m).map (fun t => ((r / (t + 1).factorial % (t + 2) : Nat) : Int)),
    decode (digitsMsd m r) (identityPerm (m + 1)), ?_, ?_, ?_⟩
  · rw [newFact_natCast r (m + 1) hn]
    simp [Nat.div_eq_of_lt hr]
  · unfold fact.perm
    simp only [Nat.add_sub_cancel, List.length_map, List.length_range]
    have := permLoop_decode ((List.range m).map (fun t => ((r / (t + 1).factorial % (t + 2) : Nat) : Int)))
      m 0 r [] (identityPerm (m + 1)) (by simp) rfl (identityPerm_length _) hr
      (by
        rw [List.drop_zero, ← digits_reverse m r hr, ← List.map_reverse, ← List.map_reverse,
          List.map_map]
        rfl)
    simpa using this
  · exact lexPermsAux_getElem? m _ r (identityPerm_length _) (identityPerm_nodup _) hr

theorem newFact_large (r n : Nat) (hn : 1 ≤ n) (hr : n.factorial ≤ r) :
    ∃ f, newFact (r : Int) n = Except.ok (f, false) := by
  refine ⟨(List.range (n - 1)).map (fun t => ((r / (t + 1).factorial % (t + 2) : Nat) : Int)), ?_⟩
  rw [newFact_natCast r n hn]
  congr 2
  have := Nat.div_pos hr (Nat.factorial_pos n)
  simp
  omega

theorem rotate_zero (p : List Int) (i : Nat) (hi : i < p.length) :
    ∃ p', rotate p i ((i : Int) + ((0 : Nat) : Int)) = Except.ok p' ∧ p'.length = p.length := by
  have h := rotate_pieces (p.take i) (p.drop i) i 0 p[i] (by simp; omega)
    (by rw [List.getElem?_drop]; simp [List.getElem?_eq_getElem hi])
  rw [List.take_append_drop] at h
  refine ⟨_, h, ?_⟩
  simp [List.length_eraseIdx]

theorem rotate_neg (p : List Int) (i : Nat) (d : Nat) (hd : 0 < d) :
    rotate p i ((i : Int) + -(d : Int)) = Except.error Fault.crashed := by
  unfold rotate
  cases h : index p ((i : Int) + -(d : Int)) with
  | error e =>
    unfold index at h
    split at h
    · split at h
      · simp [pure, Except.pure] at h
      · simp [throw, throwThe, MonadExceptOf.throw] at h; subst h; rfl
    · simp [throw, throwThe, MonadExceptOf.throw] at h; subst h; rfl
  | ok x =>
    simp only [bind, Except.bind]
    rw [if_pos (by omega)]
    rfl

/-- With digits that are the negatives of factoradic digits, not all zero,
the loop of `fact.perm` panics. -/
theorem permLoop_negative (f : List Int) : ∀ (ds : List Nat) (k i : Nat) (p : List Int),
    f.reverse.drop i = ds.map (fun (d : Nat) => -(d : Int)) → k = ds.length → i + k = f.length →
    i + k < p.length → (∃ d ∈ ds, 0 < d) → permLoop f k i p = Except.error Fault.crashed := by
  intro ds
  induction ds with
  | nil => intro k i p _ _ _ _ h; simp at h
  | cons d ds ih =>
    intro k i p hf hk hik hp hex
    simp only [List.length_cons] at hk
    subst hk
    simp only [List.map_cons] at hf
    have hfi : f.reverse[i]? = some (-(d : Int)) := by
      have := congrArg (fun z => z[0]?) hf
      simpa using this
    have hfd : f.reverse.drop (i + 1) = ds.map (fun (d : Nat) => -(d : Int)) := by
      have := congrArg (fun z => z.drop 1) hf
      simpa using this
    have hfi' : f[f.length - 1 - i]? = some (-(d : Int)) := by
      rw [List.getElem?_reverse (by omega)] at hfi
      exact hfi
    have hnn : 0 ≤ (f.length : Int) - 1 - (i : Int) := by omega
    have hidx : index f ((f.length : Int) - 1 - (i : Int)) = Except.ok (-(d : Int)) := by
      have e : (f.length : Int) - 1 - (i : Int) = ((f.length - 1 - i : Nat) : Int) := by omega
      rw [e]
      exact index_of_getElem? hfi'
    simp only [permLoop, hidx, bind, Except.bind]
    rcases Nat.eq_zero_or_pos d with h0 | hpos
    · subst h0
      obtain ⟨p', hp', hlen⟩ := rotate_zero p i (by omega)
      simp only [Nat.cast_zero, neg_zero] at hp' ⊢
      rw [hp']
      apply ih ds.length (i + 1) p' hfd rfl (by omega) (by omega)
      obtain ⟨e, he, hepos⟩ := hex
      rcases List.mem_cons.mp he with h1 | h1
      · omega
      · exact ⟨e, h1, hepos⟩
    · rw [rotate_neg p i d hpos]

/-- A negative rank is either rejected or makes the decoding panic. -/
theorem newFact_negative (r : Int) (n : Nat) (hr : r < 0) (hn : 1 ≤ n) :
    ∃ f b, newFact r n = Except.ok (f, b) ∧
      (b = true → fact.perm f = Except.error Fault.crashed) := by
  obtain ⟨a, ha⟩ : ∃ a : Nat, r = -(a : Int) := ⟨r.natAbs, by omega⟩
  subst ha
  obtain ⟨m, rfl⟩ : ∃ m, n = m + 1 := ⟨n - 1, by omega⟩
  refine ⟨_, _, by unfold newFact; rw [if_neg (by omega)]; rfl, ?_⟩
  intro hb
  simp only [Nat.add_sub_cancel, factLoop_neg, factLoop_natCast, decide_eq_true_eq,
    neg_eq_zero, Nat.cast_eq_zero] at hb ⊢
  have hlt : a < (m + 1).factorial := by
    rcases Nat.lt_or_ge a (m + 1).factorial with h | h
    · exact h
    · have := Nat.div_pos h (Nat.factorial_pos _)
      omega
  unfold fact.perm
  apply permLoop_negative _ (digitsMsd m a)
  · rw [List.drop_zero, ← digits_reverse m a hlt]
    simp only [← List.map_reverse, List.map_map]
    rfl
  · simp [digitsMsd_length]
  · simp
  · simp [identityPerm_length]
  · by_contra hcon
    have : a = 0 := digitsMsd_zero m a hlt (fun d hd => by
      by_contra h
      exact hcon ⟨d, hd, by omega⟩)
    omega

/-! ## Fuel -/

theorem chase_mono (p : List Int) (i : Nat) : ∀ (fuel fuel' : Nat) (j x : Int), fuel ≤ fuel' →
    chase p i fuel j = Except.ok x → chase p i fuel' j = Except.ok x := by
  intro fuel
  induction fuel with
  | zero =>
    intro fuel' j x _ h
    simp only [chase] at h
    split at h
    · simp [throw, throwThe, MonadExceptOf.throw] at h
    · rename_i hji
      cases fuel' <;> simp only [chase, if_neg hji] <;> exact h
  | succ fuel ih =>
    intro fuel' j x hle h
    obtain ⟨f', rfl⟩ : ∃ f', fuel' = f' + 1 := ⟨fuel' - 1, by omega⟩
    simp only [chase] at h ⊢
    split at h
    · rename_i hji
      rw [if_pos hji]
      cases hidx : index p j with
      | error e => simp [hidx, bind, Except.bind] at h
      | ok y =>
        simp only [hidx, bind, Except.bind] at h ⊢
        exact ih f' y x (by omega) h
    · rename_i hji
      rw [if_neg hji]
      exact h

theorem applyLoop_mono {β : Type} (p : List Int) (fuel fuel' : Nat) (hle : fuel ≤ fuel') :
    ∀ (k i : Nat) (d d' : List β), applyLoop fuel p k i d = Except.ok d' →
      applyLoop fuel' p k i d = Except.ok d' := by
  intro k
  induction k with
  | zero => intro i d d' h; simpa [applyLoop] using h
  | succ k ih =>
    intro i d d' h
    simp only [applyLoop] at h ⊢
    cases h1 : index p i with
    | error e => simp [h1, bind, Except.bind] at h
    | ok j0 =>
      cases h2 : chase p i fuel j0 with
      | error e => simp [h1, h2, bind, Except.bind] at h
      | ok j =>
        have h2' := chase_mono p i fuel fuel' j0 j hle h2
        cases h3 : swap d i j with
        | error e => simp [h1, h2, h3, bind, Except.bind] at h
        | ok d1 =>
          simp only [h1, h2, h2', h3, bind, Except.bind] at h ⊢
          exact ih (i + 1) d1 d' h

theorem permApply_mono {β : Type} (p : List Int) (fuel fuel' : Nat) (hle : fuel ≤ fuel')
    (d d' : List β) (h : perm.apply fuel p d = Except.ok d') : perm.apply fuel' p d = Except.ok d' :=
  applyLoop_mono p fuel fuel' hle _ _ d d' h

/-- Whatever fuel it ran with, an `apply` of a valid vector that returned has
produced the arrangement. -/
theorem permApply_ok {β : Type} (d d' : List β) (n : Nat) (p : List Int) (hp : IsPerm n p)
    (hn : d.length = n) (fuel : Nat) (h : perm.apply fuel p d = Except.ok d') : d' = arrange d p := by
  have h1 := permApply_mono p fuel (max fuel n) (le_max_left _ _) d d' h
  rw [permApply_spec d n p hp hn (max fuel n) (le_max_right _ _)] at h1
  injection h1 with h1
  exact h1.symm

/-! ## The Permuter state machine -/

theorem Inv.data_length {β : Type} {orig : List β} {s : Permuter β} (h : Inv orig s) :
    s.data.length = orig.length := by
  cases h with
  | fresh => rfl
  | shown p hp => rw [arrange_length orig p hp.inRange, hp.length]
  | pending p w q hp hw hq hu => rw [arrange_length orig w hw.inRange, hw.length]

theorem Inv.isPerm {β : Type} {orig : List β} {s : Permuter β} (h : Inv orig s) :
    IsPerm orig.length s.p := by
  cases h with
  | fresh => exact isPerm_identity _
  | shown p hp => exact hp
  | pending p w q hp hw hq hu => exact hp

theorem SetNext_large {β : Type} (s : Permuter β) (r : Nat) (hn : 1 ≤ s.data.length)
    (hr : s.data.length.factorial ≤ r) : Permuter.SetNext (r : Int) s = Except.ok (false, s) := by
  obtain ⟨f, hf⟩ := newFact_large r s.data.length hn hr
  simp [Permuter.SetNext, hf, bind, Except.bind, pure, Except.pure]

theorem SetNext_valid {β : Type} (s : Permuter β) (r : Nat) (hn : 1 ≤ s.data.length)
    (hr : r < s.data.length.factorial) :
    ∃ pr, (lexPerms s.data.length)[r]? = some pr ∧
      (∀ q, s.reset = some q →
        Permuter.SetNext (r : Int) s = Except.ok (true, ⟨s.data, pr, true, some q⟩)) ∧
      (∀ q, s.reset = none → perm.inverse s.p = Except.ok q →
        Permuter.SetNext (r : Int) s = Except.ok (true, ⟨s.data, pr, true, some q⟩)) := by
  obtain ⟨f, pr, hf, hfp, hpr⟩ := unrank_spec r s.data.length hn hr
  refine ⟨pr, hpr, ?_, ?_⟩
  · intro q hq
    simp [Permuter.SetNext, hf, hq, hfp, bind, Except.bind, pure, Except.pure]
  · intro q hq hinv
    simp [Permuter.SetNext, hf, hq, hinv, hfp, bind, Except.bind, pure, Except.pure]

/-- A negative rank never stages a jump: the call is rejected or panics. -/
theorem SetNext_negative {β : Type} (s : Permuter β) (r : Int) (hr : r < 0) (b : Bool)
    (s' : Permuter β) (h : Permuter.SetNext r s = Except.ok (b, s')) : b = false ∧ s' = s := by
  rcases Nat.eq_zero_or_pos s.data.length with h0 | h0
  · simp [Permuter.SetNext, newFact, h0, bind, Except.bind, throw, throwThe, MonadExceptOf.throw] at h
  · obtain ⟨f, b0, hf, hcrash⟩ := newFact_negative r s.data.length hr h0
    cases b0 with
    | false =>
      simp [Permuter.SetNext, hf, bind, Except.bind, pure, Except.pure] at h
      exact ⟨h.1, h.2.symm⟩
    | true =>
      have hc := hcrash rfl
      unfold Permuter.SetNext at h
      simp only [hf, bind, Except.bind] at h
      cases hreset : s.reset with
      | none =>
        cases hinv : perm.inverse s.p with
        | error e => simp [hreset, hinv, bind, Except.bind] at h
        | ok q => simp [hreset, hinv, hc, bind, Except.bind, pure, Except.pure] at h
      | some q => simp [hreset, hc, bind, Except.bind, pure, Except.pure] at h

/-- The call `SetNext` answers true exactly on the ranks `0 ≤ r < n!`. -/
theorem SetNext_true_rank {β : Type} (s s' : Permuter β) (r : Int)
    (h : Permuter.SetNext r s = Except.ok (true, s')) :
    ∃ k : Nat, r = (k : Int) ∧ k < s.data.length.factorial ∧ 1 ≤ s.data.length := by
  rcases Int.lt_or_le r 0 with hneg | hnn
  · have := (SetNext_negative s r hneg true s' h).1
    simp at this
  · obtain ⟨k, rfl⟩ := Int.eq_ofNat_of_zero_le hnn
    rcases Nat.eq_zero_or_pos s.data.length with h0 | h0
    · simp [Permuter.SetNext, newFact, h0, bind, Except.bind, throw, throwThe, MonadExceptOf.throw] at h
    · refine ⟨k, rfl, ?_, h0⟩
      by_contra hcon
      rw [SetNext_large s k h0 (by omega)] at h
      simp at h

theorem undoes_identity (n : Nat) (q : List Int) (h : perm.inverse (identityPerm n) = Except.ok q) :
    IsPerm n q ∧ Undoes q (identityPerm n) := by
  obtain ⟨q', h1, h2, h3⟩ := permInverse_spec n _ (isPerm_identity n)
  rw [h] at h1
  injection h1 with h1
  subst h1
  exact ⟨h2, h3⟩

/-- Every `SetNext` keeps the invariant. -/
theorem Inv.setNext {β : Type} {orig : List β} {s s' : Permuter β} {r : Int} {b : Bool}
    (hs : Inv orig s) (h : Permuter.SetNext r s = Except.ok (b, s')) : Inv orig s' := by
  cases b with
  | false =>
    rcases Int.lt_or_le r 0 with hneg | hnn
    · rw [(SetNext_negative s r hneg false s' h).2]; exact hs
    · obtain ⟨k, rfl⟩ := Int.eq_ofNat_of_zero_le hnn
      rcases Nat.eq_zero_or_pos s.data.length with h0 | h0
      · simp [Permuter.SetNext, newFact, h0, bind, Except.bind, throw, throwThe, MonadExceptOf.throw] at h
      · rcases Nat.lt_or_ge k s.data.length.factorial with hk | hk
        · obtain ⟨pr, -, h1, h2⟩ := SetNext_valid s k h0 hk
          cases hreset : s.reset with
          | some q => rw [h1 q hreset] at h; simp at h
          | none =>
            obtain ⟨q, hq, -, -⟩ := permInverse_spec _ s.p hs.isPerm
            rw [h2 q hreset hq] at h; simp at h
        · rw [SetNext_large s k h0 hk] at h
          injection h with h
          injection h with _ h
          rw [← h]; exact hs
  | true =>
    obtain ⟨k, rfl, hk, h0⟩ := SetNext_true_rank s s' r h
    obtain ⟨pr, hpr, h1, h2⟩ := SetNext_valid s k h0 hk
    have hprp : IsPerm orig.length pr := by
      rw [hs.data_length] at hpr
      exact lexPerms_isPerm _ hpr
    cases hs with
    | fresh =>
      obtain ⟨q, hq, hqp, hu⟩ := permInverse_spec _ _ (isPerm_identity orig.length)
      rw [h2 q rfl hq] at h
      injection h with h
      injection h with _ h
      rw [← h]
      have := Inv.pending pr (identityPerm orig.length) q hprp (isPerm_identity _) hqp hu
      rwa [arrange_identity] at this
    | shown p hp =>
      obtain ⟨q, hq, hqp, hu⟩ := permInverse_spec _ p hp
      rw [h2 q rfl hq] at h
      injection h with h
      injection h with _ h
      rw [← h]
      exact Inv.pending pr p q hprp hp hqp hu
    | pending p w q hp hw hq hu =>
      rw [h1 q rfl] at h
      injection h with h
      injection h with _ h
      rw [← h]
      exact Inv.pending pr w q hprp hw hq hu

theorem Permute_mono {β : Type} (s : Permuter β) (fuel fuel' : Nat) (hle : fuel ≤ fuel')
    (x : Bool × Permuter β) (h : Permuter.Permute fuel s = Except.ok x) : Permuter.Permute fuel' s = Except.ok x := by
  obtain ⟨d, p, fst, rst⟩ := s
  have tail : ∀ (s1 : Permuter β),
      (if s1.first = true then do
          let d ← perm.apply fuel s1.p s1.data
          pure (true, { s1 with first := false, data := d })
        else do
          let r ← perm.next s1.p s1.data
          if r.1 = true then pure (true, { s1 with p := r.2.1, data := r.2.2 })
          else do
            let q ← perm.inverse r.2.1
            let d ← perm.apply fuel q r.2.2
            pure (false, { s1 with p := identityPerm d.length, data := d })) = Except.ok x →
      (if s1.first = true then do
          let d ← perm.apply fuel' s1.p s1.data
          pure (true, { s1 with first := false, data := d })
        else do
          let r ← perm.next s1.p s1.data
          if r.1 = true then pure (true, { s1 with p := r.2.1, data := r.2.2 })
          else do
            let q ← perm.inverse r.2.1
            let d ← perm.apply fuel' q r.2.2
            pure (false, { s1 with p := identityPerm d.length, data := d })) = Except.ok x := by
    intro s1 h1
    split at h1
    · rename_i hf
      rw [if_pos hf]
      cases ha : perm.apply fuel s1.p s1.data with
      | error e => simp [ha, bind, Except.bind] at h1
      | ok d1 =>
        rw [permApply_mono _ fuel fuel' hle _ _ ha]
        rw [ha] at h1
        exact h1
    · rename_i hf
      rw [if_neg hf]
      cases hn : perm.next s1.p s1.data with
      | error e => simp [hn, bind, Except.bind] at h1
      | ok r =>
        simp only [hn, bind, Except.bind] at h1 ⊢
        split at h1
        · rename_i hr
          rw [if_pos hr]
          exact h1
        · rename_i hr
          rw [if_neg hr]
          cases hi : perm.inverse r.2.1 with
          | error e => simp [hi] at h1
          | ok q =>
            simp only [hi] at h1 ⊢
            cases ha : perm.apply fuel q r.2.2 with
            | error e => simp [ha] at h1
            | ok d1 =>
              rw [permApply_mono _ fuel fuel' hle _ _ ha]
              rw [ha] at h1
              exact h1
  unfold Permuter.Permute at h ⊢
  cases rst with
  | none =>
    exact tail ⟨d, p, fst, none⟩ h
  | some q =>
    simp only [bind, Except.bind] at h ⊢
    cases ha : perm.apply fuel q d with
    | error e => simp [ha] at h
    | ok d1 =>
      rw [permApply_mono _ fuel fuel' hle _ _ ha]
      rw [ha] at h
      exact tail ⟨d1, p, fst, none⟩ h

/-- A `Permute` call on a state with `first` set materialises the current vector. -/
theorem Permute_first {β : Type} (orig : List β) (s : Permuter β) (hs : Inv orig s)
    (hf : s.first = true) (fuel : Nat) (hfuel : orig.length ≤ fuel) :
    Permuter.Permute fuel s = Except.ok (true, ⟨arrange orig s.p, s.p, false, none⟩) := by
  cases hs with
  | fresh =>
    simp [Permuter.Permute, permApply_spec orig orig.length _ (isPerm_identity _) rfl fuel hfuel, bind,
      Except.bind, pure, Except.pure]
  | shown p hp => simp at hf
  | pending p w q hp hw hq hu =>
    have hlw : (arrange orig w).length = orig.length := by
      rw [arrange_length orig w hw.inRange, hw.length]
    have h1 := permApply_spec (arrange orig w) orig.length q hq hlw fuel hfuel
    rw [arrange_inverse orig orig.length w q hw hq rfl hu] at h1
    simp [Permuter.Permute, h1, permApply_spec orig orig.length p hp rfl fuel hfuel, bind,
      Except.bind, pure, Except.pure]

/-- A `Permute` call on a state showing the vector of rank `k` moves to rank
`k + 1`, or at the last rank restores the collection and answers false. -/
theorem Permute_shown {β : Type} (orig : List β) (k : Nat) (p : List Int)
    (hp : (lexPerms orig.length)[k]? = some p) (fuel : Nat) (hfuel : orig.length ≤ fuel) :
    (k + 1 = orig.length.factorial ∧
      Permuter.Permute fuel ⟨arrange orig p, p, false, none⟩
        = Except.ok (false, ⟨orig, identityPerm orig.length, false, none⟩)) ∨
    (∃ p', (lexPerms orig.length)[k + 1]? = some p' ∧
      Permuter.Permute fuel ⟨arrange orig p, p, false, none⟩
        = Except.ok (true, ⟨arrange orig p', p', false, none⟩)) := by
  have hpp := lexPerms_isPerm _ hp
  rcases permNext_rank orig orig.length k p rfl hp with ⟨hk, hres⟩ | ⟨p', hp', hres⟩
  · left
    refine ⟨hk, ?_⟩
    obtain ⟨q, hq, hqp, hu⟩ := permInverse_spec _ p hpp
    have hlp : (arrange orig p).length = orig.length := by
      rw [arrange_length orig p hpp.inRange, hpp.length]
    have h1 := permApply_spec (arrange orig p) orig.length q hqp hlp fuel hfuel
    rw [arrange_inverse orig orig.length p q hpp hqp rfl hu] at h1
    simp [Permuter.Permute, hres, hq, h1, bind, Except.bind, pure, Except.pure]
  · right
    refine ⟨p', hp', ?_⟩
    simp [Permuter.Permute, hres, bind, Except.bind, pure, Except.pure]

/-- Every `Permute` keeps the invariant. -/
theorem Inv.permute {β : Type} {orig : List β} {s s' : Permuter β} {fuel : Nat} {b : Bool}
    (hs : Inv orig s) (h : Permuter.Permute fuel s = Except.ok (b, s')) : Inv orig s' := by
  have h' := Permute_mono s fuel (max fuel orig.length) (le_max_left _ _) _ h
  have hfuel : orig.length ≤ max fuel orig.length := le_max_right _ _
  by_cases hf : s.first = true
  · rw [Permute_first orig s hs hf _ hfuel] at h'
    injection h' with h'
    injection h' with _ h'
    rw [← h']
    exact Inv.shown s.p hs.isPerm
  · cases hs with
    | fresh => simp at hf
    | pending p w q hp hw hq hu => simp at hf
    | shown p hp =>
      obtain ⟨k, hk⟩ := List.mem_iff_getElem?.mp ((lexPerms_mem _ p).mpr hp)
      rcases Permute_shown orig k p hk _ hfuel with ⟨-, hres⟩ | ⟨p', hp', hres⟩
      · rw [hres] at h'
        injection h' with h'
        injection h' with _ h'
        rw [← h']
        have := Inv.shown (identityPerm orig.length) (isPerm_identity orig.length)
        rwa [arrange_identity] at this
      · rw [hres] at h'
        injection h' with h'
        injection h' with _ h'
        rw [← h']
        exact Inv.shown p' (lexPerms_isPerm _ hp')

/-- Every reachable state satisfies the invariant. -/
theorem Reachable.inv {β : Type} {orig : List β} {s : Permuter β} (h : Reachable orig s) :
    Inv orig s := by
  induction h with
  | fresh => exact Inv.fresh
  | setNext _ hstep ih => exact ih.setNext hstep
  | permute _ hstep ih => exact ih.permute hstep

/-- Draining a state that shows rank `r`: ranks `r + 1` to `n! - 1` follow, then
`false` with the original order restored. -/
theorem drain_shown {β : Type} (orig : List β) (fuel : Nat) (hfuel : orig.length ≤ fuel) :
    ∀ (c r : Nat) (p : List Int), r + c + 1 = orig.length.factorial →
      (lexPerms orig.length)[r]? = some p →
      permuteTimes fuel (c + 1) ⟨arrange orig p, p, false, none⟩ =
        Except.ok (((lexPerms orig.length).drop (r + 1)).map (fun q => (true, arrange orig q))
            ++ [(false, orig)],
          ⟨orig, identityPerm orig.length, false, none⟩) := by
  intro c
  induction c with
  | zero =>
    intro r p hr hp
    rcases Permute_shown orig r p hp fuel hfuel with ⟨-, hres⟩ | ⟨p', hp', -⟩
    · have hdrop : (lexPerms orig.length).drop (r + 1) = [] :=
        List.drop_eq_nil_of_le (by rw [lexPerms_length]; omega)
      simp [permuteTimes, hres, hdrop, bind, Except.bind, pure, Except.pure]
    · have := (List.getElem?_eq_some_iff.mp hp').1
      rw [lexPerms_length] at this
      omega
  | succ c ih =>
    intro r p hr hp
    rcases Permute_shown orig r p hp fuel hfuel with ⟨hk, -⟩ | ⟨p', hp', hres⟩
    · omega
    · have hdrop : (lexPerms orig.length).drop (r + 1) = p' :: (lexPerms orig.length).drop (r + 1 + 1) := by
        obtain ⟨hlt, hget⟩ := List.getElem?_eq_some_iff.mp hp'
        rw [← hget]
        exact List.drop_eq_getElem_cons hlt
      have := ih (r + 1) p' (by omega) hp'
      rw [permuteTimes, hres]
      simp only [bind, Except.bind]
      rw [this, hdrop]
      simp [pure, Except.pure]

/-- Draining a state whose staged or initial vector has rank `r`. -/
theorem drain_first {β : Type} (orig : List β) (s : Permuter β) (hs : Inv orig s)
    (hf : s.first = true) (fuel : Nat) (hfuel : orig.length ≤ fuel) (r : Nat)
    (hr : (lexPerms orig.length)[r]? = some s.p) :
    permuteTimes fuel (orig.length.factorial - r + 1) s =
      Except.ok (((lexPerms orig.length).drop r).map (fun q => (true, arrange orig q))
          ++ [(false, orig)],
        ⟨orig, identityPerm orig.length, false, none⟩) := by
  obtain ⟨hlt, hget⟩ := List.getElem?_eq_some_iff.mp hr
  have hlt' := hlt
  rw [lexPerms_length] at hlt'
  obtain ⟨c, hc⟩ : ∃ c, orig.length.factorial - r = c + 1 := ⟨orig.length.factorial - r - 1, by omega⟩
  have hdrop : (lexPerms orig.length).drop r = s.p :: (lexPerms orig.length).drop (r + 1) := by
    rw [← hget]
    exact List.drop_eq_getElem_cons hlt
  rw [hc, permuteTimes, Permute_first orig s hs hf fuel hfuel]
  simp only [bind, Except.bind]
  rw [drain_shown orig fuel hfuel c r s.p (by omega) hr, hdrop]
  simp [pure, Except.pure]

/-- Arranging an increasing collection turns the order of vectors into the
order of collections. -/
theorem arrange_lex {β : Type} (orig : List β) (lt : β → β → Prop) (ho : orig.Pairwise lt) :
    ∀ (q q' : List Int), InRange orig.length q → InRange orig.length q' → List.Lex (· < ·) q q' →
      List.Lex lt (arrange orig q) (arrange orig q') := by
  intro q q' hq hq' h
  induction h with
  | @nil a l =>
    have ha := hq' a (List.mem_cons_self _ _)
    obtain ⟨k, rfl⟩ := Int.eq_ofNat_of_zero_le ha.1
    have hk : k < orig.length := by omega
    rw [arrange_cons_natCast orig k l orig[k] (List.getElem?_eq_getElem hk)]
    exact List.Lex.nil
  | @cons a l1 l2 _ ih =>
    have ha := hq a (List.mem_cons_self _ _)
    obtain ⟨k, rfl⟩ := Int.eq_ofNat_of_zero_le ha.1
    have hk : k < orig.length := by omega
    rw [arrange_cons_natCast orig k l1 orig[k] (List.getElem?_eq_getElem hk),
      arrange_cons_natCast orig k l2 orig[k] (List.getElem?_eq_getElem hk)]
    exact List.Lex.cons (ih (fun y hy => hq y (List.mem_cons_of_mem _ hy))
      (fun y hy => hq' y (List.mem_cons_of_mem _ hy)))
  | @rel a1 l1 a2 l2 hlt =>
    have ha1 := hq a1 (List.mem_cons_self _ _)
    have ha2 := hq' a2 (List.mem_cons_self _ _)
    obtain ⟨k1, rfl⟩ := Int.eq_ofNat_of_zero_le ha1.1
    obtain ⟨k2, rfl⟩ := Int.eq_ofNat_of_zero_le ha2.1
    have hk1 : k1 < orig.length := by omega
    have hk2 : k2 < orig.length := by omega
    rw [arrange_cons_natCast orig k1 l1 orig[k1] (List.getElem?_eq_getElem hk1),
      arrange_cons_natCast orig k2 l2 orig[k2] (List.getElem?_eq_getElem hk2)]
    exact List.Lex.rel ((List.pairwise_iff_getElem.mp ho) k1 k2 hk1 hk2 (by omega))

theorem arrange_slot {β : Type} (orig : List β) (q : List Int) (hq : IsPerm orig.length q)
    (i : Nat) (hi : i < orig.length) :
    ∃ j : Nat, j < orig.length ∧ q[i]? = some (j : Int) ∧ (arrange orig q)[i]? = orig[j]? := by
  obtain ⟨j, hj, hqj⟩ := hq.inRange.getElem? (show i < q.length by rw [hq.length]; exact hi)
  exact ⟨j, hj, hqj, arrange_getElem? orig q hq.inRange i j hqj⟩

/-- C1. Full enumeration from a fresh Permuter: `n! + 1` calls of `Permute`
return true `n!` times, leaving after the call of index `k` the arrangement
`orig[q[i]]` for the vector `q` of rank `k`, and then false with the original
order back.  `lexPerms n` lists every permutation of `0..n-1` once, in strictly
increasing lexicographic order, so the arrangements visited are pairwise
distinct index-wise, and increasing whenever `orig` is. -/
theorem C1_full_enumeration {β : Type} (orig : List β) (fuel : Nat)
    (hfuel : orig.length ≤ fuel) :
    (∃ s, permuteTimes fuel (orig.length.factorial + 1) (NewPermuter orig) =
        Except.ok ((lexPerms orig.length).map (fun q => (true, arrange orig q))
          ++ [(false, orig)], s)) ∧
    (lexPerms orig.length).length = orig.length.factorial ∧
    (lexPerms orig.length).Pairwise (List.Lex (· < ·)) ∧
    (∀ q, q ∈ lexPerms orig.length ↔ IsPerm orig.length q) ∧
    (∀ q ∈ lexPerms orig.length, ∀ i, i < orig.length →
      ∃ j : Nat, j < orig.length ∧ q[i]? = some (j : Int) ∧ (arrange orig q)[i]? = orig[j]?) ∧
    (∀ lt : β → β → Prop, orig.Pairwise lt →
      ((lexPerms orig.length).map (arrange orig)).Pairwise (List.Lex lt)) := by
  refine ⟨?_, lexPerms_length _, lexPerms_sorted _, lexPerms_mem _, ?_, ?_⟩
  · have h := drain_first orig (NewPermuter orig) Inv.fresh rfl fuel hfuel 0 (lexPerms_zero _)
    exact ⟨_, h⟩
  · intro q hq i hi
    exact arrange_slot orig q ((lexPerms_mem _ q).mp hq) i hi
  · intro lt ho
    rw [List.pairwise_map]
    have hs := lexPerms_sorted orig.length
    have hs' : (lexPerms orig.length).Pairwise
        (fun a b => (a ∈ lexPerms orig.length ∧ b ∈ lexPerms orig.length) ∧ a < b) := by
      rw [List.pairwise_and_iff] 
      exact ⟨List.pairwise_of_forall_mem_list (fun a ha b hb => ⟨ha, hb⟩), hs⟩
    refine hs'.imp ?_
    rintro a b ⟨⟨ha, hb⟩, hab⟩
    exact arrange_lex orig lt ho a b ((lexPerms_mem _ a).mp ha).inRange
      ((lexPerms_mem _ b).mp hb).inRange hab

theorem C1_full_enumeration_witness :
    ([10, 20, 30] : List Nat).length ≤ 3 ∧
    ∃ s, permuteTimes 3 7 (NewPermuter [10, 20, 30]) =
      Except.ok ([(true, [10, 20, 30]), (true, [10, 30, 20]), (true, [20, 10, 30]),
        (true, [20, 30, 10]), (true, [30, 10, 20]), (true, [30, 20, 10]),
        (false, [10, 20, 30])], s) :=
  ⟨by decide, (C1_full_enumeration [10, 20, 30] 3 (by decide)).1⟩

/-- A successful jump stages the vector of the requested rank. -/
theorem SetNext_true_staged {β : Type} (orig : List β) (s s1 : Permuter β) (r : Int)
    (hs : Inv orig s) (h : Permuter.SetNext r s = Except.ok (true, s1)) :
    ∃ k : Nat, r = (k : Int) ∧ k < orig.length.factorial ∧ 1 ≤ orig.length ∧ s1.first = true ∧
      (lexPerms orig.length)[k]? = some s1.p ∧ s1.data = s.data ∧
      (∀ q, s.reset = some q → s1.reset = some q) ∧
      (s.reset = none → ∃ q, perm.inverse s.p = Except.ok q ∧ s1.reset = some q) := by
  obtain ⟨k, rfl, hk, h0⟩ := SetNext_true_rank s s1 r h
  obtain ⟨pr, hpr, h1, h2⟩ := SetNext_valid s k h0 hk
  rw [hs.data_length] at hk h0 hpr
  refine ⟨k, rfl, hk, h0, ?_⟩
  cases hreset : s.reset with
  | some q =>
    rw [h1 q hreset] at h
    injection h with h
    injection h with _ h
    subst h
    exact ⟨rfl, hpr, rfl, fun q' hq' => hq', fun hnone => by simp at hnone⟩
  | none =>
    obtain ⟨q, hq, -, -⟩ := permInverse_spec _ s.p hs.isPerm
    rw [h2 q hreset hq] at h
    injection h with h
    injection h with _ h
    subst h
    exact ⟨rfl, hpr, rfl, fun q' hq' => by simp at hq', fun _ => ⟨q, hq, rfl⟩⟩

/-- A jump to a rank below `n!` succeeds in every state satisfying the invariant. -/
theorem SetNext_ok {β : Type} (orig : List β) (s : Permuter β) (k : Nat) (hs : Inv orig s)
    (hn : 1 ≤ orig.length) (hk : k < orig.length.factorial) :
    ∃ s1, Permuter.SetNext (k : Int) s = Except.ok (true, s1) := by
  have h0 : 1 ≤ s.data.length := by rw [hs.data_length]; exact hn
  obtain ⟨pr, -, h1, h2⟩ := SetNext_valid s k h0 (by rw [hs.data_length]; exact hk)
  cases hreset : s.reset with
  | some q => exact ⟨_, h1 q hreset⟩
  | none =>
    obtain ⟨q, hq, -, -⟩ := permInverse_spec _ s.p hs.isPerm
    exact ⟨_, h2 q hreset hq⟩

/-- C2. Jump lands on the requested rank: in every reachable state, when
`SetNext r` returns true the rank satisfies `0 ≤ r < n!` and the next `Permute`
returns true leaving `orig[q[i]]` in every slot `i`, for the vector `q` of rank
`r`, whatever the collection showed before. -/
theorem C2_jump_lands {β : Type} (orig : List β) (s s1 : Permuter β) (r : Int) (fuel : Nat)
    (hs : Reachable orig s) (hjump : Permuter.SetNext r s = Except.ok (true, s1))
    (hfuel : orig.length ≤ fuel) :
    ∃ (k : Nat) (q : List Int) (s2 : Permuter β), r = (k : Int) ∧
      (lexPerms orig.length)[k]? = some q ∧ Permuter.Permute fuel s1 = Except.ok (true, s2) ∧
      s2.data = arrange orig q ∧
      ∀ i, i < orig.length →
        ∃ j : Nat, j < orig.length ∧ q[i]? = some (j : Int) ∧ s2.data[i]? = orig[j]? := by
  obtain ⟨k, hr, -, -, hfirst, hq, -, -, -⟩ := SetNext_true_staged orig s s1 r hs.inv hjump
  have hs1 : Inv orig s1 := hs.inv.setNext hjump
  refine ⟨k, s1.p, _, hr, hq, Permute_first orig s1 hs1 hfirst fuel hfuel, rfl, ?_⟩
  intro i hi
  exact arrange_slot orig s1.p hs1.isPerm i hi

/-- C3. Jump then drain: after `SetNext r` with `r < n!`, the next `n! - r`
calls of `Permute` return true and show the ranks `r, r + 1, ..., n! - 1` in
this order, and the call after that returns false with the original order back. -/
theorem C3_jump_then_drain {β : Type} (orig : List β) (s : Permuter β) (r fuel : Nat)
    (hs : Reachable orig s) (hn : 1 ≤ orig.length) (hr : r < orig.length.factorial)
    (hfuel : orig.length ≤ fuel) :
    ∃ s1 s2, Permuter.SetNext (r : Int) s = Except.ok (true, s1) ∧
      permuteTimes fuel (orig.length.factorial - r + 1) s1 =
        Except.ok (((lexPerms orig.length).drop r).map (fun q => (true, arrange orig q))
          ++ [(false, orig)], s2) := by
  obtain ⟨s1, h1⟩ := SetNext_ok orig s r hs.inv hn hr
  obtain ⟨k, hk, -, -, hfirst, hq, -, -, -⟩ := SetNext_true_staged orig s s1 r hs.inv h1
  have hkr : k = r := by exact_mod_cast hk.symm
  subst hkr
  exact ⟨s1, _, h1, drain_first orig s1 (hs.inv.setNext h1) hfirst fuel hfuel k hq⟩

/-- With enough fuel `Permute` returns in every state satisfying the invariant. -/
theorem Permute_total {β : Type} (orig : List β) (s : Permuter β) (hs : Inv orig s) (fuel : Nat)
    (hfuel : orig.length ≤ fuel) : ∃ b s', Permuter.Permute fuel s = Except.ok (b, s') := by
  by_cases hf : s.first = true
  · exact ⟨_, _, Permute_first orig s hs hf fuel hfuel⟩
  · cases hs with
    | fresh => simp at hf
    | pending p w q hp hw hq hu => simp at hf
    | shown p hp =>
      obtain ⟨k, hk⟩ := List.mem_iff_getElem?.mp ((lexPerms_mem _ p).mpr hp)
      rcases Permute_shown orig k p hk fuel hfuel with ⟨-, hres⟩ | ⟨p', -, hres⟩
      · exact ⟨_, _, hres⟩
      · exact ⟨_, _, hres⟩

/-- A `Permute` call that answers false leaves the state of an exhausted
Permuter: the original order, the identity vector, `first` unset, no reset. -/
theorem Permute_false_state {β : Type} (orig : List β) (s s' : Permuter β) (hs : Inv orig s)
    (fuel : Nat) (h : Permuter.Permute fuel s = Except.ok (false, s')) :
    s' = ⟨orig, identityPerm orig.length, false, none⟩ := by
  have h' := Permute_mono s fuel (max fuel orig.length) (le_max_left _ _) _ h
  have hfuel : orig.length ≤ max fuel orig.length := le_max_right _ _
  by_cases hf : s.first = true
  · rw [Permute_first orig s hs hf _ hfuel] at h'
    simp at h'
  · cases hs with
    | fresh => simp at hf
    | pending p w q hp hw hq hu => simp at hf
    | shown p hp =>
      obtain ⟨k, hk⟩ := List.mem_iff_getElem?.mp ((lexPerms_mem _ p).mpr hp)
      rcases Permute_shown orig k p hk _ hfuel with ⟨-, hres⟩ | ⟨p', -, hres⟩
      · rw [hres] at h'
        injection h' with h'
        injection h' with _ h'
        exact h'.symm
      · rw [hres] at h'
        simp at h'

/-- C4. Original order is restored on exhaustion: in every reachable state
`Permute` returns (given fuel for the chase loops), and whenever it returns
false the collection is slot for slot the one the Permuter was built over. -/
theorem C4_restored_on_exhaustion {β : Type} (orig : List β) (s : Permuter β) (fuel : Nat)
    (hs : Reachable orig s) :
    (orig.length ≤ fuel → ∃ b s', Permuter.Permute fuel s = Except.ok (b, s')) ∧
    ∀ s', Permuter.Permute fuel s = Except.ok (false, s') → s'.data = orig := by
  refine ⟨fun hfuel => Permute_total orig s hs.inv fuel hfuel, ?_⟩
  intro s' h
  rw [Permute_false_state orig s s' hs.inv fuel h]

/-- C5 (defect). On a collection of three elements `SetNext(-1)` panics:
`newFact(-1, 3)` yields the digits `[-1, 0]` with `ok = true`, and `fact.perm`
then evaluates the slice expression `p[2:1]`. -/
theorem C5_negative_rank_panics :
    newFact (-1) 3 = Except.ok ([-1, 0], true) ∧
    fact.perm [-1, 0] = Except.error Fault.crashed ∧
    Permuter.SetNext (-1) (NewPermuter ["1", "2", "3"]) = Except.error Fault.crashed :=
  ⟨rfl, rfl, rfl⟩

/-- C6. Rejected jumps are atomic: with at least one element and a rank
`r ≥ n!`, `SetNext` returns false and the state it leaves (vector, `first`,
pending reset, collection) is the state it was called in. -/
theorem C6_rejected_jump_atomic {β : Type} (s : Permuter β) (r : Int)
    (hn : 1 ≤ s.data.length) (hr : (s.data.length.factorial : Int) ≤ r) :
    Permuter.SetNext r s = Except.ok (false, s) := by
  obtain ⟨k, rfl⟩ := Int.eq_ofNat_of_zero_le (le_trans (Int.ofNat_nonneg _) hr)
  exact SetNext_large s k hn (by exact_mod_cast hr)

/-- C7 (defect). After exhaustion `first` stays false: on `["1", "2"]` the
third `Permute` returns false and leaves the identity vector with no pending
reset but `first = false`, so the fourth call skips the original order and
shows `["2", "1"]`, and a second drain yields one arrangement instead of two. -/
theorem C7_first_not_reset_after_exhaustion :
    permuteTimes 2 3 (NewPermuter ["1", "2"]) =
      Except.ok ([(true, ["1", "2"]), (true, ["2", "1"]), (false, ["1", "2"])],
        ⟨["1", "2"], [0, 1], false, none⟩) ∧
    permuteTimes 2 2 ⟨["1", "2"], [0, 1], false, none⟩ =
      Except.ok ([(true, ["2", "1"]), (false, ["1", "2"])],
        ⟨["1", "2"], [0, 1], false, none⟩) :=
  ⟨rfl, rfl⟩

/-- C8. `SetNext` never touches the collection: whenever it returns, valid
rank or not, the collection is the one it was called with; and in a reachable
state over a non-empty collection it returns for every non-negative rank. -/
theorem C8_setNext_keeps_data {β : Type} (orig : List β) (s : Permuter β) (r : Int) :
    (∀ b s', Permuter.SetNext r s = Except.ok (b, s') → s'.data = s.data) ∧
    (Reachable orig s → 1 ≤ orig.length → 0 ≤ r → ∃ b s', Permuter.SetNext r s = Except.ok (b, s')) := by
  constructor
  · intro b s' h
    unfold Permuter.SetNext at h
    cases hf : newFact r s.data.length with
    | error e => simp [hf, bind, Except.bind] at h
    | ok f =>
      simp only [hf, bind, Except.bind] at h
      split at h
      · simp only [pure, Except.pure, Except.ok.injEq, Prod.mk.injEq] at h
        rw [← h.2]
      · cases hp : fact.perm f.1 with
        | error e =>
          cases hreset : s.reset with
          | some q => simp [hreset, hp, pure, Except.pure] at h
          | none =>
            cases hinv : perm.inverse s.p with
            | error e' => simp [hreset, hinv] at h
            | ok q => simp [hreset, hinv, hp, pure, Except.pure] at h
        | ok p =>
          cases hreset : s.reset with
          | some q =>
            simp only [hreset, hp, pure, Except.pure, Except.ok.injEq, Prod.mk.injEq] at h
            rw [← h.2]
          | none =>
            cases hinv : perm.inverse s.p with
            | error e' => simp [hreset, hinv] at h
            | ok q =>
              simp only [hreset, hinv, hp, pure, Except.pure, Except.ok.injEq, Prod.mk.injEq] at h
              rw [← h.2]
  · intro hs hn hr
    obtain ⟨k, rfl⟩ := Int.eq_ofNat_of_zero_le hr
    rcases Nat.lt_or_ge k orig.length.factorial with hk | hk
    · obtain ⟨s1, h1⟩ := SetNext_ok orig s k hs.inv hn hk
      exact ⟨_, _, h1⟩
    · exact ⟨_, _, SetNext_large s k (by rw [hs.inv.data_length]; exact hn)
        (by rw [hs.inv.data_length]; exact hk)⟩

/-- C9. Round trip of `apply` and `inverse`: for a valid vector `v` and a
collection `d` of the same length, `v.apply(d)` returns the arrangement
`d[v[i]]`, `v.inverse()` returns, and applying the inverse to that arrangement
gives back `d`. -/
theorem C9_apply_inverse_roundtrip {β : Type} (d : List β) (v : List Int) (fuel : Nat)
    (hv : IsPerm d.length v) (hfuel : d.length ≤ fuel) :
    ∃ q, perm.apply fuel v d = Except.ok (arrange d v) ∧ perm.inverse v = Except.ok q ∧
      perm.apply fuel q (arrange d v) = Except.ok d := by
  obtain ⟨q, hq, hqp, hu⟩ := permInverse_spec _ v hv
  refine ⟨q, permApply_spec d _ v hv rfl fuel hfuel, hq, ?_⟩
  have hl : (arrange d v).length = d.length := by
    rw [arrange_length d v hv.inRange, hv.length]
  have := permApply_spec (arrange d v) d.length q hqp hl fuel hfuel
  rwa [arrange_inverse d d.length v q hv hqp rfl hu] at this

/-- C10. Back-to-back jumps: in a reachable state, `SetNext a` followed by
`SetNext b` (both ranks below `n!`) succeeds and leaves the very state that
`SetNext b` alone leaves, and the reset recorded by the first jump is the one
still pending after the second. -/
theorem C10_back_to_back_jumps {β : Type} (orig : List β) (s : Permuter β) (a b : Nat)
    (hs : Reachable orig s) (hn : 1 ≤ orig.length) (ha : a < orig.length.factorial)
    (hb : b < orig.length.factorial) :
    ∃ s1 s2 q, Permuter.SetNext (a : Int) s = Except.ok (true, s1) ∧
      Permuter.SetNext (b : Int) s1 = Except.ok (true, s2) ∧
      Permuter.SetNext (b : Int) s = Except.ok (true, s2) ∧
      s1.reset = some q ∧ s2.reset = some q := by
  obtain ⟨s1, h1⟩ := SetNext_ok orig s a hs.inv hn ha
  have hs1 := hs.inv.setNext h1
  obtain ⟨s2, h2⟩ := SetNext_ok orig s1 b hs1 hn hb
  obtain ⟨s3, h3⟩ := SetNext_ok orig s b hs.inv hn hb
  obtain ⟨k1, hk1, -, -, hf1, hp1, hd1, hr1, hr1'⟩ := SetNext_true_staged orig s s1 a hs.inv h1
  obtain ⟨k2, hk2, -, -, hf2, hp2, hd2, hr2, -⟩ := SetNext_true_staged orig s1 s2 b hs1 h2
  obtain ⟨k3, hk3, -, -, hf3, hp3, hd3, hr3, hr3'⟩ := SetNext_true_staged orig s s3 b hs.inv h3
  have e2 : k2 = b := by exact_mod_cast hk2.symm
  have e3 : k3 = b := by exact_mod_cast hk3.symm
  subst e2; subst e3
  have hq1 : ∃ q, s1.reset = some q ∧ s3.reset = some q := by
    cases hreset : s.reset with
    | some q => exact ⟨q, hr1 q hreset, hr3 q hreset⟩
    | none =>
      obtain ⟨q, hq, hq'⟩ := hr1' hreset
      obtain ⟨q3, hq3, hq3'⟩ := hr3' hreset
      rw [hq] at hq3
      injection hq3 with hq3
      subst hq3
      exact ⟨q, hq', hq3'⟩
  obtain ⟨q, hq1, hq3⟩ := hq1
  have hq2 := hr2 q hq1
  have hsame : s3 = s2 := by
    obtain ⟨d2, p2, f2, r2⟩ := s2
    obtain ⟨d3, p3, f3, r3⟩ := s3
    simp only at hf2 hp2 hd2 hq2 hf3 hp3 hd3 hq3
    rw [hp3] at hp2
    injection hp2 with hp2
    subst hf2 hf3 hq2 hq3 hp2 hd3
    rw [hd1] at hd2
    subst hd2
    rfl
  rw [hsame] at h3
  exact ⟨s1, s2, q, h1, h2, h3, hq1, hq2⟩

/-! ## Concrete runs -/

theorem reach_staged_231 :
    Reachable ["1", "2", "3"] ⟨["1", "2", "3"], [1, 2, 0], true, some [0, 1, 2]⟩ :=
  @Reachable.setNext String ["1", "2", "3"] (NewPermuter ["1", "2", "3"]) _ 3 true
    Reachable.fresh rfl

theorem reach_showing_231 :
    Reachable ["1", "2", "3"] ⟨["2", "3", "1"], [1, 2, 0], false, none⟩ :=
  @Reachable.permute String ["1", "2", "3"] _ _ 3 true reach_staged_231 rfl

theorem reach_showing_312 :
    Reachable ["1", "2", "3"] ⟨["3", "1", "2"], [2, 0, 1], false, none⟩ :=
  @Reachable.permute String ["1", "2", "3"] _ _ 3 true reach_showing_231 rfl

theorem reach_showing_12 : Reachable ["1", "2"] ⟨["1", "2"], [0, 1], false, none⟩ :=
  @Reachable.permute String ["1", "2"] (NewPermuter ["1", "2"]) _ 2 true Reachable.fresh rfl

theorem reach_showing_21 : Reachable ["1", "2"] ⟨["2", "1"], [1, 0], false, none⟩ :=
  @Reachable.permute String ["1", "2"] _ _ 2 true reach_showing_12 rfl

theorem isPerm_120 : IsPerm 3 [1, 2, 0] := by
  unfold IsPerm identityPerm
  decide

theorem C2_jump_lands_witness :
    Reachable ["1", "2", "3"] ⟨["3", "1", "2"], [2, 0, 1], false, none⟩ ∧
    Permuter.SetNext 5 ⟨["3", "1", "2"], [2, 0, 1], false, none⟩ =
      Except.ok (true, ⟨["3", "1", "2"], [2, 1, 0], true, some [1, 2, 0]⟩) ∧
    ["1", "2", "3"].length ≤ 3 ∧
    ∃ (k : Nat) (q : List Int) (s2 : Permuter String), (5 : Int) = (k : Int) ∧
      (lexPerms 3)[k]? = some q ∧
      Permuter.Permute 3 ⟨["3", "1", "2"], [2, 1, 0], true, some [1, 2, 0]⟩ = Except.ok (true, s2) ∧
      s2.data = arrange ["1", "2", "3"] q ∧
      ∀ i, i < 3 → ∃ j : Nat, j < 3 ∧ q[i]? = some (j : Int) ∧ s2.data[i]? = ["1", "2", "3"][j]? :=
  ⟨reach_showing_312, rfl, by decide,
    C2_jump_lands ["1", "2", "3"] _ _ 5 3 reach_showing_312 rfl (by decide)⟩

theorem C3_jump_then_drain_witness :
    Reachable ["1", "2", "3"] ⟨["3", "1", "2"], [2, 0, 1], false, none⟩ ∧
    1 ≤ ["1", "2", "3"].length ∧ 3 < ["1", "2", "3"].length.factorial ∧
    ["1", "2", "3"].length ≤ 3 ∧
    ∃ s1 s2, Permuter.SetNext 3 ⟨["3", "1", "2"], [2, 0, 1], false, none⟩ = Except.ok (true, s1) ∧
      permuteTimes 3 4 s1 =
        Except.ok ([(true, ["2", "3", "1"]), (true, ["3", "1", "2"]), (true, ["3", "2", "1"]),
          (false, ["1", "2", "3"])], s2) :=
  ⟨reach_showing_312, by decide, by decide, by decide,
    C3_jump_then_drain ["1", "2", "3"] _ 3 3 reach_showing_312 (by decide) (by decide)
      (by decide)⟩

theorem C4_restored_on_exhaustion_witness :
    Reachable ["1", "2"] ⟨["2", "1"], [1, 0], false, none⟩ ∧
    Permuter.Permute 2 ⟨["2", "1"], [1, 0], false, none⟩ =
      Except.ok (false, ⟨["1", "2"], [0, 1], false, none⟩) ∧
    (⟨["1", "2"], [0, 1], false, none⟩ : Permuter String).data = ["1", "2"] ∧
    ∃ b s', Permuter.Permute 2 ⟨["2", "1"], [1, 0], false, none⟩ = Except.ok (b, s') :=
  ⟨reach_showing_21, rfl,
    (C4_restored_on_exhaustion ["1", "2"] _ 2 reach_showing_21).2 _ rfl,
    (C4_restored_on_exhaustion ["1", "2"] _ 2 reach_showing_21).1 (by decide)⟩

theorem C6_rejected_jump_atomic_witness :
    1 ≤ (NewPermuter ["1", "2", "3"]).data.length ∧
    (((NewPermuter ["1", "2", "3"]).data.length.factorial : Nat) : Int) ≤ 7 ∧
    Permuter.SetNext 7 (NewPermuter ["1", "2", "3"]) = Except.ok (false, NewPermuter ["1", "2", "3"]) :=
  ⟨by decide, by decide, C6_rejected_jump_atomic (NewPermuter ["1", "2", "3"]) 7 (by decide) (by decide)⟩

theorem C8_setNext_keeps_data_witness :
    Permuter.SetNext 5 ⟨["3", "1", "2"], [2, 0, 1], false, none⟩ =
      Except.ok (true, ⟨["3", "1", "2"], [2, 1, 0], true, some [1, 2, 0]⟩) ∧
    (⟨["3", "1", "2"], [2, 1, 0], true, some [1, 2, 0]⟩ : Permuter String).data
      = ["3", "1", "2"] ∧
    Reachable ["1", "2", "3"] ⟨["3", "1", "2"], [2, 0, 1], false, none⟩ ∧
    1 ≤ ["1", "2", "3"].length ∧ (0 : Int) ≤ 5 ∧
    ∃ b s', Permuter.SetNext 5 ⟨["3", "1", "2"], [2, 0, 1], false, none⟩ = Except.ok (b, s') :=
  ⟨rfl,
    (C8_setNext_keeps_data ["1", "2", "3"] ⟨["3", "1", "2"], [2, 0, 1], false, none⟩ 5).1 true
      ⟨["3", "1", "2"], [2, 1, 0], true, some [1, 2, 0]⟩ rfl,
    reach_showing_312, by decide,
    by decide,
    (C8_setNext_keeps_data ["1", "2", "3"] _ 5).2 reach_showing_312 (by decide) (by decide)⟩

theorem C9_apply_inverse_roundtrip_witness :
    IsPerm ["0", "1", "2"].length [1, 2, 0] ∧ ["0", "1", "2"].length ≤ 3 ∧
    ∃ q, perm.apply 3 [1, 2, 0] ["0", "1", "2"] = Except.ok ["1", "2", "0"] ∧
      perm.inverse [1, 2, 0] = Except.ok q ∧
      perm.apply 3 q ["1", "2", "0"] = Except.ok ["0", "1", "2"] :=
  ⟨isPerm_120, by decide,
    C9_apply_inverse_roundtrip ["0", "1", "2"] [1, 2, 0] 3 isPerm_120 (by decide)⟩

theorem C10_back_to_back_jumps_witness :
    Reachable ["1", "2", "3"] ⟨["3", "1", "2"], [2, 0, 1], false, none⟩ ∧
    1 ≤ ["1", "2", "3"].length ∧ 5 < ["1", "2", "3"].length.factorial ∧
    3 < ["1", "2", "3"].length.factorial ∧
    ∃ s1 s2 q, Permuter.SetNext 5 ⟨["3", "1", "2"], [2, 0, 1], false, none⟩ = Except.ok (true, s1) ∧
      Permuter.SetNext 3 s1 = Except.ok (true, s2) ∧
      Permuter.SetNext 3 ⟨["3", "1", "2"], [2, 0, 1], false, none⟩ = Except.ok (true, s2) ∧
      s1.reset = some q ∧ s2.reset = some q :=
  ⟨reach_showing_312, by decide, by decide, by decide,
    C10_back_to_back_jumps ["1", "2", "3"] _ 5 3 reach_showing_312 (by decide) (by decide)
      (by decide)⟩

/-! ## Claims on the factoradic codec -/

theorem lexPerms_nodup (n : Nat) : (lexPerms n).Nodup :=
  (lexPerms_sorted n).imp (fun h => ne_of_lt h)

/-- The vectors below the entry of rank `r` are the `r` entries before it. -/
theorem lexPerms_take (n r : Nat) (p : List Int) (hp : (lexPerms n)[r]? = some p) :
    ((lexPerms n).take r).length = r ∧ ((lexPerms n).take r).Nodup ∧
    ∀ q, q ∈ (lexPerms n).take r ↔ (IsPerm n q ∧ List.Lex (· < ·) q p) := by
  have hr : r < (lexPerms n).length := (List.getElem?_eq_some_iff.mp hp).1
  refine ⟨by rw [List.length_take]; omega, (lexPerms_nodup n).sublist (List.take_sublist _ _), ?_⟩
  intro q
  constructor
  · intro hq
    obtain ⟨i, hi⟩ := List.mem_iff_getElem?.mp hq
    rw [List.getElem?_take] at hi
    split at hi
    · rename_i hir
      exact ⟨lexPerms_isPerm n hi, lexPerms_lt n hir hi hp⟩
    · simp at hi
  · rintro ⟨hq, hlt⟩
    obtain ⟨i, hi⟩ := List.mem_iff_getElem?.mp ((lexPerms_mem n q).mpr hq)
    have hir : i < r := by
      by_contra hcon
      have := lexPerms_le n (show r ≤ i by omega) hp hi
      exact absurd hlt (not_lt.mpr this)
    apply List.mem_iff_getElem?.mpr
    exact ⟨i, by rw [List.getElem?_take_of_lt hir]; exact hi⟩

/-- C11. Rank decoding is the lexicographic unranking: for `n ≥ 1` and
`r < n!`, `newFact(r, n)` is accepted and `perm()` of its digits is a valid
permutation of `0..n-1`, the entry of rank `r` in the lexicographic list; the
valid permutations strictly below it are exactly `r` in number. -/
theorem C11_decoding_is_unranking (n r : Nat) (hn : 1 ≤ n) (hr : r < n.factorial) :
    ∃ f p, newFact (r : Int) n = Except.ok (f, true) ∧ fact.perm f = Except.ok p ∧
      IsPerm n p ∧ (lexPerms n)[r]? = some p ∧
      ∃ below : List perm, below.length = r ∧ below.Nodup ∧
        ∀ q, q ∈ below ↔ (IsPerm n q ∧ List.Lex (· < ·) q p) := by
  obtain ⟨f, p, hf, hfp, hp⟩ := unrank_spec r n hn hr
  exact ⟨f, p, hf, hfp, lexPerms_isPerm n hp, hp, (lexPerms n).take r, lexPerms_take n r p hp⟩

/-- C12. Decoding accepts exactly the ranks below `n!`: for `n ≥ 1` and a
non-negative rank `r`, `newFact(r, n)` returns and its flag is true if and only
if `r < n!`. -/
theorem C12_ok_iff_below_factorial (n : Nat) (r : Int) (hn : 1 ≤ n) (hr : 0 ≤ r) :
    ∃ f b, newFact r n = Except.ok (f, b) ∧ (b = true ↔ r < (n.factorial : Int)) := by
  obtain ⟨k, rfl⟩ := Int.eq_ofNat_of_zero_le hr
  refine ⟨_, _, newFact_natCast k n hn, ?_⟩
  rw [decide_eq_true_eq, Nat.div_eq_zero_iff (Nat.factorial_pos n)]
  exact Int.ofNat_lt.symm

theorem digit_sum (r : Nat) : ∀ m : Nat,
    ((List.range m).map (fun k => r / (k + 1).factorial % (k + 2) * (k + 1).factorial)).sum
      = r % (m + 1).factorial := by
  intro m
  induction m with
  | zero => simp [Nat.mod_one]
  | succ m ih =>
    rw [List.range_succ, List.map_append, List.sum_append, ih]
    simp only [List.map_cons, List.map_nil, List.sum_cons, List.sum_nil, Nat.add_zero]
    rw [Nat.factorial_succ (m + 1), Nat.mul_comm (m + 1 + 1) _, Nat.mod_mul,
      Nat.mul_comm (r / (m + 1).factorial % (m + 2))]

theorem digit_sum_cast (r m : Nat) :
    ((List.range m).map (fun k =>
      ((List.range m).map (fun t => ((r / (t + 1).factorial % (t + 2) : Nat) : Int))).getD k 0
        * ((k + 1).factorial : Int))).sum = ((r % (m + 1).factorial : Nat) : Int) := by
  rw [← digit_sum r m, Nat.cast_list_sum, List.map_map]
  congr 1
  apply List.map_congr_left
  intro k hk
  have hk' : k < m := List.mem_range.mp hk
  simp [List.getD_eq_getElem?_getD, List.getElem?_range hk']

/-- C13. Factoradic digits are well formed: for `n ≥ 1` and `r < n!`,
`newFact(r, n)` returns `n - 1` digits, the digit at position `k` lies in
`0..k+1`, and the digits weighted by `(k+1)!` sum to `r`. -/
theorem C13_digits_well_formed (n r : Nat) (hn : 1 ≤ n) (hr : r < n.factorial) :
    ∃ f : fact, newFact (r : Int) n = Except.ok (f, true) ∧ f.length = n - 1 ∧
      (∀ k, k < n - 1 → ∃ x : Int, f[k]? = some x ∧ 0 ≤ x ∧ x ≤ (k : Int) + 1) ∧
      ((List.range f.length).map (fun k => f.getD k 0 * ((k + 1).factorial : Int))).sum
        = (r : Int) := by
  obtain ⟨m, rfl⟩ : ∃ m, n = m + 1 := ⟨n - 1, by omega⟩
  refine ⟨(List.range m).map (fun t => ((r / (t + 1).factorial % (t + 2) : Nat) : Int)), ?_, ?_,
    ?_, ?_⟩
  · rw [newFact_natCast r (m + 1) hn]
    simp [Nat.div_eq_of_lt hr]
  · simp
  · intro k hk
    have hk' : k < m := by omega
    refine ⟨((r / (k + 1).factorial % (k + 2) : Nat) : Int), ?_, Int.ofNat_nonneg _, ?_⟩
    · rw [List.getElem?_map, List.getElem?_range hk']
      rfl
    · have := Nat.mod_lt (r / (k + 1).factorial) (show 0 < k + 2 by omega)
      omega
  · have hsum := digit_sum_cast r m
    rw [Nat.mod_eq_of_lt hr] at hsum
    simp only [List.length_map, List.length_range]
    exact hsum

/-! ## Claims on the permutation vector -/

theorem applyLoop_perm {β : Type} (fuel : Nat) (p : List Int) :
    ∀ (k i : Nat) (d d' : List β), applyLoop fuel p k i d = Except.ok d' → d'.Perm d := by
  intro k
  induction k with
  | zero =>
    intro i d d' h
    simp only [applyLoop, pure, Except.pure, Except.ok.injEq] at h
    rw [h]
  | succ k ih =>
    intro i d d' h
    simp only [applyLoop] at h
    cases h1 : index p i with
    | error e => simp [h1, bind, Except.bind] at h
    | ok j0 =>
      cases h2 : chase p i fuel j0 with
      | error e => simp [h1, h2, bind, Except.bind] at h
      | ok j =>
        cases h3 : swap d i j with
        | error e => simp [h1, h2, h3, bind, Except.bind] at h
        | ok d1 =>
          simp only [h1, h2, h3, bind, Except.bind] at h
          obtain ⟨a, b, ha, hb, -, -⟩ := swap_nonneg h3
          rw [hb] at h3
          exact (ih (i + 1) d1 d' h).trans (swap_perm h3)

/-- C14. The method `apply` realises the permutation using swaps only: for a
valid vector `p` and a collection `d` of the same length, `p.apply(d)` returns
a rearrangement `d1` of `d` with `d1[i] = d[p[i]]` in every slot `i`. -/
theorem C14_apply_realises {β : Type} (d : List β) (p : perm) (fuel : Nat)
    (hp : IsPerm d.length p) (hfuel : d.length ≤ fuel) :
    ∃ d1, perm.apply fuel p d = Except.ok d1 ∧ d1.length = d.length ∧ d1.Perm d ∧
      ∀ i, i < d.length →
        ∃ j : Nat, j < d.length ∧ p[i]? = some (j : Int) ∧ d1[i]? = d[j]? := by
  have h := permApply_spec d d.length p hp rfl fuel hfuel
  refine ⟨arrange d p, h, ?_, applyLoop_perm fuel p _ _ d _ h, ?_⟩
  · rw [arrange_length d p hp.inRange, hp.length]
  · intro i hi
    exact arrange_slot d p hp i hi

theorem undoes_symm {n : Nat} {p q : List Int} (hp : IsPerm n p) (hq : IsPerm n q)
    (h : Undoes q p) : Undoes p q := by
  intro t s hts
  have hs : s < p.length := by
    have := hq.inRange (s : Int) (List.mem_iff_getElem?.mpr ⟨t, hts⟩)
    rw [hp.length]
    omega
  obtain ⟨t', -, ht'⟩ := hp.inRange.getElem? hs
  have := h s t' ht'
  have e := hq.getElem?_inj hts (show q[t']? = some (s : Int) from this)
  rw [e]
  exact ht'

/-- Any collection of the right length is the arrangement of some collection by `p`. -/
theorem exists_arranged {β : Type} (n : Nat) (p : List Int) (d : List β) (hp : IsPerm n p)
    (hd : d.length = n) : ∃ orig : List β, orig.length = n ∧ arrange orig p = d := by
  obtain ⟨q, -, hq, hu⟩ := permInverse_spec n p hp
  refine ⟨arrange d q, ?_, ?_⟩
  · rw [arrange_length d q (by rw [hd]; exact hq.inRange), hq.length]
  · exact arrange_inverse d n q p hq hp hd (undoes_symm hp hq hu)

theorem reverse_identity_desc (n : Nat) : (identityPerm n).reverse.Pairwise (· ≥ ·) := by
  rw [List.pairwise_reverse]
  exact (identityPerm_sorted n).imp (fun h => le_of_lt h)

/-- C15. The method `next` computes the lexicographic successor: for a valid
vector `p` other than the descending one and a collection of the same length,
`p.next(d)` returns true and the new vector is a valid permutation, greater than
`p`, with no valid permutation strictly between; its rank is one more. -/
theorem C15_next_is_successor {β : Type} (n : Nat) (p : perm) (d : List β) (hp : IsPerm n p)
    (hd : d.length = n) (hlast : p ≠ (identityPerm n).reverse) :
    ∃ p1 d1, perm.next p d = Except.ok (true, p1, d1) ∧ IsPerm n p1 ∧ List.Lex (· < ·) p p1 ∧
      (∀ q, IsPerm n q → List.Lex (· < ·) p q → q = p1 ∨ List.Lex (· < ·) p1 q) ∧
      ∃ k, (lexPerms n)[k]? = some p ∧ (lexPerms n)[k + 1]? = some p1 := by
  obtain ⟨orig, ho, rfl⟩ := exists_arranged n p d hp hd
  rcases permNext_spec orig n p hp ho with ⟨hmax, -⟩ | ⟨p1, hres, hp1, hlt, hleast⟩
  · exfalso
    apply hlast
    have hrev : IsPerm n (identityPerm n).reverse := List.reverse_perm _
    have h1 := hmax _ hrev
    have h2 := le_desc_of_perm _ p (reverse_identity_desc n) (hp.trans hrev.symm)
    exact le_antisymm h2 h1
  · refine ⟨p1, _, hres, hp1, hlt, ?_, ?_⟩
    · intro q hq hpq
      rcases lt_or_eq_of_le (hleast q hq hpq) with h | h
      · exact Or.inr h
      · exact Or.inl h.symm
    · obtain ⟨k, hk⟩ := List.mem_iff_getElem?.mp ((lexPerms_mem n p).mpr hp)
      rcases permNext_rank orig n k p ho hk with ⟨-, hres'⟩ | ⟨p2, hp2, hres'⟩
      · rw [hres] at hres'
        simp at hres'
      · rw [hres] at hres'
        injection hres' with hres'
        injection hres' with _ hres'
        injection hres' with hres' _
        rw [hres']
        exact ⟨k, hk, hp2⟩

theorem reverseLoop_total {β : Type} : ∀ (r l : Nat) (p : List Int) (d : List β),
    p.length = d.length → (r = 0 ∨ r < p.length) →
    ∃ p1 d1, reverseLoop l r p d = Except.ok (p1, d1) := by
  intro r
  induction r with
  | zero => intro l p d _ _; exact ⟨p, d, by simp [reverseLoop, pure, Except.pure]⟩
  | succ r ih =>
    intro l p d hl hr
    have hr' : r + 1 < p.length := by omega
    by_cases hlr : l < r + 1
    · have e : ((r : Int) + 1) = ((r + 1 : Nat) : Int) := by push_cast; rfl
      have h1 := swap_natCast p l (r + 1) (by omega) hr'
      have h2 := swap_natCast d l (r + 1) (by omega) (by omega)
      obtain ⟨p1, d1, h3⟩ := ih (l + 1) _ _
        ((swap_ok_length h1).trans (hl.trans (swap_ok_length h2).symm))
        (Or.inr (by rw [swap_ok_length h1]; omega))
      refine ⟨p1, d1, ?_⟩
      simp only [reverseLoop, hlr, if_true, e, h1, h2, bind, Except.bind]
      exact h3
    · exact ⟨p, d, by simp [reverseLoop, hlr, pure, Except.pure]⟩

/-- With an ascent in the vector, `next` returns true for any collection of the same length. -/
theorem permNext_of_ascent {β : Type} (A : List Int) (a h : Int) (D : List Int) (d : List β)
    (hah : a < h) (hD : (h :: D).Pairwise (· ≥ ·)) (hl : (A ++ a :: h :: D).length = d.length) :
    ∃ p1 d1, perm.next (A ++ a :: h :: D) d = Except.ok (true, p1, d1) := by
  obtain ⟨D1, b, D2, hsplit, hb, hD2⟩ := split_last_larger a (h :: D) ⟨h, by simp, hah⟩
  have h1 : scanAscent (A ++ a :: h :: D) ((A ++ a :: h :: D).length - 1)
      = Except.ok (A.length : Int) :=
    scanAscent_ascent A a h D hah hD _ (by simp) (le_refl _)
  rw [hsplit] at h1 hl ⊢
  have e1 : A ++ a :: (D1 ++ b :: D2) = (A ++ a :: D1) ++ b :: D2 := by simp
  have hia : (A ++ a :: (D1 ++ b :: D2))[A.length]? = some a := getElem?_pieces A _ a _ rfl
  have h2 : scanLarger (A ++ a :: (D1 ++ b :: D2)) (A.length : Int) (A ++ a :: (D1 ++ b :: D2)).length
      = Except.ok ((A.length + 1 + D1.length : Nat) : Int) := by
    have := scanLarger_spec (A ++ a :: D1) b D2 A.length a (by rw [← e1]; exact hia) hb hD2
      ((A ++ a :: D1) ++ b :: D2).length (by simp; omega) (le_refl _)
    rw [← e1] at this
    rw [this]
    simp
    omega
  have h3 := swap_pieces A D1 D2 a b A.length (A.length + 1 + D1.length) rfl rfl
  have hlen : A.length + 1 + D1.length < d.length := by
    rw [← hl]; simp; omega
  have h4 := swap_natCast d A.length (A.length + 1 + D1.length) (by omega) hlen
  obtain ⟨p1, d1, h5⟩ := reverseLoop_total ((A ++ a :: (D1 ++ b :: D2)).length - 1) (A.length + 1)
    (A ++ b :: (D1 ++ a :: D2)) _
    ((swap_ok_length h3).trans (hl.trans (swap_ok_length h4).symm))
    (Or.inr (by simp))
  refine ⟨p1, d1, ?_⟩
  unfold perm.next
  rw [if_neg (by rw [hl]; simp)]
  simp only [h1, bind, Except.bind]
  rw [if_neg (by omega)]
  simp only [h2, h3, h4, Int.toNat_ofNat, h5]
  rfl

/-- C16. The method `next` on the last permutation is a no-op: for any vector
`p` and collection `d` of equal length `p.next(d)` returns, it returns false
exactly when no index `i` has `p[i] < p[i+1]`, and then vector and collection
are the ones it was given. -/
theorem C16_next_on_last_is_noop {β : Type} (p : perm) (d : List β) (hl : p.length = d.length) :
    ∃ b p1 d1, perm.next p d = Except.ok (b, p1, d1) ∧
      (b = false ↔ ¬ ∃ (i : Nat) (a c : Int), p[i]? = some a ∧ p[i + 1]? = some c ∧ a < c) ∧
      (b = false → p1 = p ∧ d1 = d) := by
  rcases desc_or_ascent p with hdesc | ⟨A, a, h, D, rfl, hah, hD⟩
  · refine ⟨false, p, d, permNext_last p d hdesc hl, ?_, fun _ => ⟨rfl, rfl⟩⟩
    simp only [true_iff]
    rintro ⟨i, a, c, ha, hc, hac⟩
    have := pairwise_ge_getElem? hdesc (Nat.lt_succ_self i) ha hc
    omega
  · obtain ⟨p1, d1, hres⟩ := permNext_of_ascent A a h D d hah hD hl
    refine ⟨true, p1, d1, hres, ?_, fun hb => by simp at hb⟩
    simp only [Bool.true_eq_false, false_iff, not_not]
    refine ⟨A.length, a, h, getElem?_pieces A _ a _ rfl, ?_, hah⟩
    rw [getElem?_append_cons A _ a (A.length + 1) 0 (by omega)]
    simp

theorem arrange_of_slots {β : Type} (orig d : List β) (n : Nat) (p : List Int) (hp : IsPerm n p)
    (ho : orig.length = n) (hd : d.length = n)
    (h : ∀ k, k < n → ∃ j : Nat, p[k]? = some (j : Int) ∧ d[k]? = orig[j]?) :
    d = arrange orig p := by
  have hin : InRange orig.length p := by rw [ho]; exact hp.inRange
  apply List.ext_getElem?
  intro k
  rcases Nat.lt_or_ge k n with hk | hk
  · obtain ⟨j, hj, hdj⟩ := h k hk
    rw [arrange_getElem? orig p hin k j hj]
    exact hdj
  · rw [List.getElem?_eq_none (by omega), List.getElem?_eq_none]
    rw [arrange_length orig p hin, hp.length]
    exact hk

/-- C17. The method `next` keeps vector and data in step: for a valid vector
`p` and a collection `d` with `d[k] = orig[p[k]]` in every slot, `p.next(d)`
returns a valid vector `p1` and a collection `d1` with `d1[k] = orig[p1[k]]` in
every slot, whatever `orig` is. -/
theorem C17_next_keeps_in_step {β : Type} (orig d : List β) (n : Nat) (p : perm)
    (hp : IsPerm n p) (ho : orig.length = n) (hd : d.length = n)
    (h : ∀ k, k < n → ∃ j : Nat, p[k]? = some (j : Int) ∧ d[k]? = orig[j]?) :
    ∃ b p1 d1, perm.next p d = Except.ok (b, p1, d1) ∧ IsPerm n p1 ∧ d1.length = n ∧
      ∀ k, k < n → ∃ j : Nat, j < n ∧ p1[k]? = some (j : Int) ∧ d1[k]? = orig[j]? := by
  have hd' := arrange_of_slots orig d n p hp ho hd h
  subst hd'
  subst ho
  rcases permNext_spec orig orig.length p hp rfl with ⟨-, hres⟩ | ⟨p1, hres, hp1, -, -⟩
  · exact ⟨false, p, _, hres, hp, hd, fun k hk => arrange_slot orig p hp k hk⟩
  · refine ⟨true, p1, _, hres, hp1, ?_, fun k hk => arrange_slot orig p1 hp1 k hk⟩
    rw [arrange_length orig p1 hp1.inRange, hp1.length]

/-! ## Claims on the invariants of the state machine -/

/-- C18. Pending-reset and arrangement invariant: in every reachable state,
(1) a pending reset `q` is a valid vector that undoes the valid vector `w` the
collection is arranged by, so applying `q` gives the original order; (2) with
no reset pending and `first` unset, `data[i] = orig[p[i]]` in every slot;
(3) with no reset pending and `first` set, `p` is the identity and the
collection is in its original order. -/
theorem C18_state_invariant {β : Type} (orig : List β) (s : Permuter β)
    (hs : Reachable orig s) :
    (∀ q, s.reset = some q →
      ∃ w, IsPerm orig.length w ∧ IsPerm orig.length q ∧ s.data = arrange orig w ∧
        (∀ t j : Nat, w[t]? = some (j : Int) → q[j]? = some (t : Int)) ∧
        ∀ fuel, orig.length ≤ fuel → perm.apply fuel q s.data = Except.ok orig) ∧
    (s.reset = none → s.first = false →
      IsPerm orig.length s.p ∧ s.data = arrange orig s.p ∧
      ∀ i, i < orig.length →
        ∃ j : Nat, j < orig.length ∧ s.p[i]? = some (j : Int) ∧ s.data[i]? = orig[j]?) ∧
    (s.reset = none → s.first = true → s.p = identityPerm orig.length ∧ s.data = orig) := by
  have hinv := hs.inv
  cases hinv with
  | fresh =>
    refine ⟨fun q hq => by simp at hq, fun _ hf => by simp at hf, fun _ _ => ⟨rfl, rfl⟩⟩
  | shown p hp =>
    refine ⟨fun q hq => by simp at hq, fun _ _ => ⟨hp, rfl, fun i hi => arrange_slot orig p hp i hi⟩,
      fun _ hf => by simp at hf⟩
  | pending p w q hp hw hq hu =>
    refine ⟨?_, fun hn => by simp at hn, fun hn => by simp at hn⟩
    intro q' hq'
    simp only [Option.some.injEq] at hq'
    subst hq'
    refine ⟨w, hw, hq, rfl, hu, ?_⟩
    intro fuel hfuel
    have hlw : (arrange orig w).length = orig.length := by
      rw [arrange_length orig w hw.inRange, hw.length]
    have h1 := permApply_spec (arrange orig w) orig.length q hq hlw fuel hfuel
    rwa [arrange_inverse orig orig.length w q hw hq rfl hu] at h1

/-- For a vector and a collection of equal length `next` returns. -/
theorem permNext_total {β : Type} (p : List Int) (d : List β) (hl : p.length = d.length) :
    ∃ r, perm.next p d = Except.ok r := by
  rcases desc_or_ascent p with hdesc | ⟨A, a, h, D, rfl, hah, hD⟩
  · exact ⟨_, permNext_last p d hdesc hl⟩
  · obtain ⟨p1, d1, hres⟩ := permNext_of_ascent A a h D d hah hD hl
    exact ⟨_, hres⟩

/-- C19. The length-mismatch panic is unreachable through the public calls:
in every reachable state the vector, and a pending reset if any, is a valid
permutation of `0..n-1` of length `n`, the length of the collection; `next`
and `apply` on them return without a panic, and so does `Permute`. -/
theorem C19_no_length_mismatch {β : Type} (orig : List β) (s : Permuter β)
    (hs : Reachable orig s) :
    IsPerm orig.length s.p ∧ s.p.length = s.data.length ∧ s.data.length = orig.length ∧
    (∀ q, s.reset = some q → IsPerm orig.length q ∧ q.length = s.data.length) ∧
    (∃ r, perm.next s.p s.data = Except.ok r) ∧
    (∀ fuel, orig.length ≤ fuel → ∃ d1, perm.apply fuel s.p s.data = Except.ok d1) ∧
    (∀ fuel, orig.length ≤ fuel → ∃ b s1, Permuter.Permute fuel s = Except.ok (b, s1)) := by
  have hinv := hs.inv
  have hp := hinv.isPerm
  have hd := hinv.data_length
  refine ⟨hp, by rw [hp.length, hd], hd, ?_, permNext_total s.p s.data (by rw [hp.length, hd]),
    fun fuel hfuel => ⟨_, permApply_spec s.data orig.length s.p hp hd fuel hfuel⟩,
    fun fuel hfuel => Permute_total orig s hinv fuel hfuel⟩
  intro q hq
  cases hinv with
  | fresh => simp at hq
  | shown p hp' => simp at hq
  | pending p w q' hp' hw hq' hu =>
    simp only [Option.some.injEq] at hq
    subst hq
    exact ⟨hq', by rw [hq'.length, hd]⟩

theorem chase_ge (p : List Int) (i : Nat) : ∀ (fuel : Nat) (j0 j : Int),
    chase p i fuel j0 = Except.ok j → (i : Int) ≤ j := by
  intro fuel
  induction fuel with
  | zero =>
    intro j0 j h
    simp only [chase] at h
    split at h
    · simp [throw, throwThe, MonadExceptOf.throw] at h
    · simp only [pure, Except.pure, Except.ok.injEq] at h
      omega
  | succ fuel ih =>
    intro j0 j h
    simp only [chase] at h
    split at h
    · cases hidx : index p j0 with
      | error e => simp [hidx, bind, Except.bind] at h
      | ok y =>
        simp only [hidx, bind, Except.bind] at h
        exact ih y j h
    · simp only [pure, Except.pure, Except.ok.injEq] at h
      omega

/-- Every iteration of a run of `apply` that returned has chased to a slot of the collection. -/
theorem applyLoop_chases {β : Type} (fuel : Nat) (p : List Int) :
    ∀ (k i : Nat) (d d' : List β), applyLoop fuel p k i d = Except.ok d' →
      ∀ t, i ≤ t → t < i + k →
        ∃ (j0 : Int) (j : Nat), index p t = Except.ok j0 ∧
          chase p t fuel j0 = Except.ok (j : Int) ∧ j < d.length := by
  intro k
  induction k with
  | zero => intro i d d' _ t h1 h2; omega
  | succ k ih =>
    intro i d d' h t ht1 ht2
    simp only [applyLoop] at h
    cases h1 : index p i with
    | error e => simp [h1, bind, Except.bind] at h
    | ok j0 =>
      cases h2 : chase p i fuel j0 with
      | error e => simp [h1, h2, bind, Except.bind] at h
      | ok j =>
        cases h3 : swap d i j with
        | error e => simp [h1, h2, h3, bind, Except.bind] at h
        | ok d1 =>
          simp only [h1, h2, h3, bind, Except.bind] at h
          obtain ⟨a, b, ha, hb, hal, hbl⟩ := swap_nonneg h3
          rcases Nat.eq_or_lt_of_le ht1 with hti | hti
          · subst hti
            exact ⟨j0, b, h1, by rw [h2, hb], hbl⟩
          · obtain ⟨j0', j', g1, g2, g3⟩ := ih (i + 1) d1 d' h t (by omega) (by omega)
            exact ⟨j0', j', g1, g2, by rw [swap_ok_length h3] at g3; exact g3⟩

theorem chase_stuck : ∀ fuel : Nat, chase [0, 0] 1 fuel 0 = Except.error Fault.starved := by
  intro fuel
  induction fuel with
  | zero => rfl
  | succ fuel ih =>
    simp only [chase]
    rw [if_pos (by decide)]
    exact ih

/-- C20. The method `apply` terminates on valid input: for a valid vector
`p` of `0..n-1` the chase loop of every index `i`, started at `p[i]`, ends
within `n` iterations at a slot `j` with `i ≤ j < n`, so `apply` returns on
every collection of length `n`; on the vector `[0, 0]`, which is no bijection,
the chase loop of index 1 never ends and `apply` does not return with any fuel. -/
theorem C20_apply_terminates (n : Nat) (p : perm) (fuel : Nat) (hp : IsPerm n p)
    (hfuel : n ≤ fuel) :
    (∀ i, i < n → ∃ j0 j : Nat, p[i]? = some (j0 : Int) ∧
      chase p i fuel (j0 : Int) = Except.ok (j : Int) ∧ i ≤ j ∧ j < n) ∧
    (∀ (β : Type) (d : List β), d.length = n → ∃ d1, perm.apply fuel p d = Except.ok d1) ∧
    (∀ fuel1 : Nat, chase [0, 0] 1 fuel1 0 = Except.error Fault.starved) ∧
    (∀ (fuel1 : Nat) (β : Type) (x y : β),
      perm.apply fuel1 [0, 0] [x, y] = Except.error Fault.starved) := by
  refine ⟨?_, fun β d hd => ⟨_, permApply_spec d n p hp hd fuel hfuel⟩, chase_stuck, ?_⟩
  · intro i hi
    have hrun := permApply_spec p n p hp hp.length fuel hfuel
    obtain ⟨j0, j, h1, h2, h3⟩ := applyLoop_chases fuel p p.length 0 p _ hrun i (by omega)
      (by rw [hp.length]; omega)
    obtain ⟨k0, -, hk0⟩ := hp.inRange.getElem? (show i < p.length by rw [hp.length]; exact hi)
    rw [index_of_getElem? hk0] at h1
    injection h1 with h1
    subst h1
    have hge := chase_ge p i fuel _ _ h2
    exact ⟨k0, j, hk0, h2, by omega, by rw [hp.length] at h3; exact h3⟩
  · intro fuel1 β x y
    have h := chase_stuck fuel1
    have h0 : chase [0, 0] 0 fuel1 0 = Except.ok 0 := by
      cases fuel1 <;> rfl
    simp only [perm.apply, List.length_cons, List.length_nil, applyLoop, bind, Except.bind]
    have i0 : index ([0, 0] : List Int) ((0 : Nat) : Int) = Except.ok 0 := rfl
    have i1 : index ([0, 0] : List Int) ((0 + 1 : Nat) : Int) = Except.ok 0 := rfl
    have s0 : swap [x, y] ((0 : Nat) : Int) 0 = Except.ok [x, y] := rfl
    rw [i0]
    simp only [h0, s0, i1, h]

/-! ## Concrete runs for the codec, the vector and the invariants -/

theorem slots_231 : ∀ k : Nat, k < 3 →
    ∃ j : Nat, ([1, 2, 0] : List Int)[k]? = some (j : Int) ∧
      ["2", "3", "1"][k]? = ["1", "2", "3"][j]? := by
  intro k hk
  interval_cases k
  · exact ⟨1, rfl, rfl⟩
  · exact ⟨2, rfl, rfl⟩
  · exact ⟨0, rfl, rfl⟩

theorem C11_decoding_is_unranking_witness :
    1 ≤ 3 ∧ 4 < Nat.factorial 3 ∧
    ∃ f p, newFact ((4 : Nat) : Int) 3 = Except.ok (f, true) ∧ fact.perm f = Except.ok p ∧
      IsPerm 3 p ∧ (lexPerms 3)[4]? = some p ∧
      ∃ below : List perm, below.length = 4 ∧ below.Nodup ∧
        ∀ q, q ∈ below ↔ (IsPerm 3 q ∧ List.Lex (· < ·) q p) :=
  ⟨by decide, by decide, C11_decoding_is_unranking 3 4 (by decide) (by decide)⟩

theorem C12_ok_iff_below_factorial_witness :
    1 ≤ 3 ∧ (0 : Int) ≤ 7 ∧
    ∃ f b, newFact 7 3 = Except.ok (f, b) ∧ (b = true ↔ (7 : Int) < ((Nat.factorial 3 : Nat) : Int)) :=
  ⟨by decide, by decide, C12_ok_iff_below_factorial 3 7 (by decide) (by decide)⟩

theorem C13_digits_well_formed_witness :
    1 ≤ 3 ∧ 5 < Nat.factorial 3 ∧
    ∃ f : List Int, newFact ((5 : Nat) : Int) 3 = Except.ok (f, true) ∧ f.length = 3 - 1 ∧
      (∀ k : Nat, k < 3 - 1 → ∃ x : Int, f[k]? = some x ∧ 0 ≤ x ∧ x ≤ (k : Int) + 1) ∧
      ((List.range f.length).map (fun k => f.getD k 0 * ((k + 1).factorial : Int))).sum
        = ((5 : Nat) : Int) :=
  ⟨by decide, by decide, C13_digits_well_formed 3 5 (by decide) (by decide)⟩

theorem C14_apply_realises_witness :
    IsPerm ["0", "1", "2"].length [1, 2, 0] ∧ ["0", "1", "2"].length ≤ 3 ∧
    ∃ d1, perm.apply 3 [1, 2, 0] ["0", "1", "2"] = Except.ok d1 ∧
      d1.length = ["0", "1", "2"].length ∧ d1.Perm ["0", "1", "2"] ∧
      ∀ i, i < ["0", "1", "2"].length →
        ∃ j : Nat, j < ["0", "1", "2"].length ∧ ([1, 2, 0] : perm)[i]? = some (j : Int) ∧
          d1[i]? = ["0", "1", "2"][j]? :=
  ⟨isPerm_120, by decide, C14_apply_realises ["0", "1", "2"] [1, 2, 0] 3 isPerm_120 (by decide)⟩

theorem C15_next_is_successor_witness :
    IsPerm 3 [1, 2, 0] ∧ ["2", "3", "1"].length = 3 ∧
    ([1, 2, 0] : perm) ≠ (identityPerm 3).reverse ∧
    ∃ p1 d1, perm.next [1, 2, 0] ["2", "3", "1"] = Except.ok (true, p1, d1) ∧ IsPerm 3 p1 ∧
      List.Lex (· < ·) [1, 2, 0] p1 ∧
      (∀ q, IsPerm 3 q → List.Lex (· < ·) [1, 2, 0] q → q = p1 ∨ List.Lex (· < ·) p1 q) ∧
      ∃ k, (lexPerms 3)[k]? = some ([1, 2, 0] : List Int) ∧ (lexPerms 3)[k + 1]? = some p1 :=
  ⟨isPerm_120, rfl, by decide,
    C15_next_is_successor 3 [1, 2, 0] ["2", "3", "1"] isPerm_120 rfl (by decide)⟩

theorem C16_next_on_last_is_noop_witness :
    ([2, 1, 0] : perm).length = ["3", "2", "1"].length ∧
    ∃ b p1 d1, perm.next [2, 1, 0] ["3", "2", "1"] = Except.ok (b, p1, d1) ∧
      (b = false ↔
        ¬ ∃ (i : Nat) (a c : Int), ([2, 1, 0] : perm)[i]? = some a ∧
          ([2, 1, 0] : perm)[i + 1]? = some c ∧ a < c) ∧
      (b = false → p1 = [2, 1, 0] ∧ d1 = ["3", "2", "1"]) :=
  ⟨rfl, C16_next_on_last_is_noop [2, 1, 0] ["3", "2", "1"] rfl⟩

theorem C17_next_keeps_in_step_witness :
    IsPerm 3 [1, 2, 0] ∧ ["1", "2", "3"].length = 3 ∧ ["2", "3", "1"].length = 3 ∧
    (∀ k : Nat, k < 3 → ∃ j : Nat, ([1, 2, 0] : List Int)[k]? = some (j : Int) ∧
      ["2", "3", "1"][k]? = ["1", "2", "3"][j]?) ∧
    ∃ b p1 d1, perm.next [1, 2, 0] ["2", "3", "1"] = Except.ok (b, p1, d1) ∧ IsPerm 3 p1 ∧
      d1.length = 3 ∧
      ∀ k : Nat, k < 3 → ∃ j : Nat, j < 3 ∧ p1[k]? = some (j : Int) ∧ d1[k]? = ["1", "2", "3"][j]? :=
  ⟨isPerm_120, rfl, rfl, slots_231,
    C17_next_keeps_in_step ["1", "2", "3"] ["2", "3", "1"] 3 [1, 2, 0] isPerm_120 rfl rfl
      slots_231⟩

theorem C18_state_invariant_witness :
    Reachable ["1", "2", "3"] ⟨["1", "2", "3"], [1, 2, 0], true, some [0, 1, 2]⟩ ∧
    ∃ w, IsPerm 3 w ∧ IsPerm 3 [0, 1, 2] ∧ ["1", "2", "3"] = arrange ["1", "2", "3"] w ∧
      (∀ t j : Nat, w[t]? = some (j : Int) → ([0, 1, 2] : perm)[j]? = some (t : Int)) ∧
      ∀ fuel, 3 ≤ fuel → perm.apply fuel [0, 1, 2] ["1", "2", "3"] = Except.ok ["1", "2", "3"] :=
  ⟨reach_staged_231,
    (C18_state_invariant ["1", "2", "3"] ⟨["1", "2", "3"], [1, 2, 0], true, some [0, 1, 2]⟩
      reach_staged_231).1 [0, 1, 2] rfl⟩

theorem C19_no_length_mismatch_witness :
    Reachable ["1", "2", "3"] ⟨["3", "1", "2"], [2, 0, 1], false, none⟩ ∧
    IsPerm 3 [2, 0, 1] ∧ ([2, 0, 1] : perm).length = ["3", "1", "2"].length ∧
    (∃ r, perm.next [2, 0, 1] ["3", "1", "2"] = Except.ok r) :=
  ⟨reach_showing_312,
    (C19_no_length_mismatch ["1", "2", "3"] ⟨["3", "1", "2"], [2, 0, 1], false, none⟩
      reach_showing_312).1,
    (C19_no_length_mismatch ["1", "2", "3"] ⟨["3", "1", "2"], [2, 0, 1], false, none⟩
      reach_showing_312).2.1,
    (C19_no_length_mismatch ["1", "2", "3"] ⟨["3", "1", "2"], [2, 0, 1], false, none⟩
      reach_showing_312).2.2.2.2.1⟩

theorem C20_apply_terminates_witness :
    IsPerm 3 [1, 2, 0] ∧ 3 ≤ 3 ∧
    (∀ i : Nat, i < 3 → ∃ j0 j : Nat, ([1, 2, 0] : perm)[i]? = some (j0 : Int) ∧
      chase [1, 2, 0] i 3 (j0 : Int) = Except.ok (j : Int) ∧ i ≤ j ∧ j < 3) ∧
    (∀ fuel1 : Nat, chase [0, 0] 1 fuel1 0 = Except.error Fault.starved) :=
  ⟨isPerm_120, by decide, (C20_apply_terminates 3 [1, 2, 0] 3 isPerm_120 (by decide)).1,
    (C20_apply_terminates 3 [1, 2, 0] 3 isPerm_120 (by decide)).2.2.1⟩

end GoPermute
